import Mathlib

/-!
# Verification of the Personal-Finance Auto-Pilot core

Shallow embedding of the repository's categorization engine
(`src/lib/db/index.ts` — the smart-categorization module), the user-scoped
query-safety layer (`executeRawQuery` in the queries module and
`createSqlQueryTool` in `src/lib/agent/financeAgent.ts`) and the vector
retrieval layer (`searchSimilar`, both the application-side cosine scan and
the pgvector-backed variant).

Modelling conventions:
* JavaScript strings are modelled as `List Char` (String wrappers are
  provided where convenient); the JS string operations used by the source
  (`trim`, `toUpperCase`, `startsWith`, `includes`, `slice`) are modelled on
  ASCII, which is the alphabet the source's patterns and the claims use.
* The concrete regular expressions appearing in the source are compiled by
  hand into dedicated matchers (the patterns are all star-free and their
  leftmost-match semantics is worked out in comments at each matcher).
* External calls (the hosted LLM, the data store) are oracle parameters:
  stateful code becomes explicit state passing, fallible external calls
  return sum types.
-/

namespace FinancePilot

set_option maxRecDepth 16384
set_option maxHeartbeats 1000000

/-! ## Basic list/character utilities shared by the embedding -/

/-- JS `\s` / `String.prototype.trim` whitespace, restricted to the
characters that can actually appear in the source's ASCII patterns plus
NBSP/BOM (the source never manipulates other Unicode whitespace). -/
def jsWs (c : Char) : Bool :=
  c = ' ' || c = '\t' || c = '\n' || c = '\r' || c = '\x0b' || c = '\x0c' ||
  c = '\u00A0' || c = '\uFEFF'

/-- JS regex `\w` (word character), used for the `\b` boundary. -/
def isWordChar (c : Char) : Bool :=
  ('A' ≤ c && c ≤ 'Z') || ('a' ≤ c && c ≤ 'z') || ('0' ≤ c && c ≤ '9') || c = '_'

/-- JS regex `\d`. -/
def isDigitChar (c : Char) : Bool := '0' ≤ c && c ≤ '9'

/-- JS regex `[A-Z]` (no `i` flag). -/
def isUpperAZ (c : Char) : Bool := 'A' ≤ c && c ≤ 'Z'

/-- JS regex `[A-Z]` under the `i` flag. -/
def isLetterAZi (c : Char) : Bool := ('A' ≤ c && c ≤ 'Z') || ('a' ≤ c && c ≤ 'z')

/-- ASCII model of JS `toUpperCase`. -/
def jsToUpper (c : Char) : Char :=
  if 'a' ≤ c && c ≤ 'z' then Char.ofNat (c.toNat - 32) else c

/-- JS `String.prototype.trim` (strip leading and trailing whitespace). -/
def jsTrim (cs : List Char) : List Char :=
  ((cs.dropWhile jsWs).reverse.dropWhile jsWs).reverse

/-- JS `String.prototype.startsWith` (case-sensitive). -/
def startsWithList : List Char → List Char → Bool
  | [], _ => true
  | _ :: _, [] => false
  | p :: ps, c :: cs => p = c && startsWithList ps cs

/-- JS `String.prototype.includes` (substring containment). -/
def containsList (pat : List Char) : List Char → Bool
  | [] => startsWithList pat []
  | c :: cs => startsWithList pat (c :: cs) || containsList pat cs

/-- Case-insensitive literal match at the head (`pat` is stored uppercase,
the input character is uppercased before comparison — the semantics of a
case-insensitively flagged literal regex). -/
def startsCI : List Char → List Char → Bool
  | [], _ => true
  | _ :: _, [] => false
  | p :: ps, c :: cs => jsToUpper c = p && startsCI ps cs

/-- Length of the maximal leading whitespace run (greedy `\s+`). -/
def wsCount : List Char → Nat
  | [] => 0
  | c :: cs => if jsWs c then wsCount cs + 1 else 0

/-! ## Query Safety Layer (`executeRawQuery`, `createSqlQueryTool`)

The source (src/lib/agent/financeAgent.ts, raw SQL section) guards and
rewrites a candidate SQL string:

```
const normalizedQuery = query.trim().toUpperCase()
if (!normalizedQuery.startsWith('SELECT')) throw ...
let secureQuery = query
const fromTransactionsRegex = /FROM\s+transactions\b/gi
const hasWhere = /FROM\s+transactions\s+WHERE/gi.test(query)
if (fromTransactionsRegex.test(query)) {
  if (hasWhere) secureQuery = query.replace(/FROM\s+transactions\s+WHERE/gi,
      `FROM transactions WHERE user_id = '${userId}' AND`)
  else secureQuery = query.replace(/FROM\s+transactions\b/gi,
      `FROM transactions WHERE user_id = '${userId}'`)
}
```

`matchFT` is the hand-compiled matcher for `/FROM\s+transactions\b/i` at the
head of the input; it returns the number of characters consumed.  Greedy
`\s+` needs no backtracking here because the character after the whitespace
in the pattern (`t`) is not itself whitespace. -/

def matchFT (cs : List Char) : Option Nat :=
  if startsCI ("FROM".toList) cs then
    let cs1 := cs.drop 4
    let w := wsCount cs1
    if w = 0 then none else
      let cs2 := cs1.drop w
      if startsCI ("TRANSACTIONS".toList) cs2 then
        match cs2.drop 12 with
        | [] => some (4 + w + 12)
        | c :: _ => if isWordChar c then none else some (4 + w + 12)
      else none
  else none

/-- Hand-compiled matcher for `/FROM\s+transactions\s+WHERE/i` at the head
of the input (note: the source's regex has no `\b` after `WHERE`). -/
def matchFTW (cs : List Char) : Option Nat :=
  if startsCI ("FROM".toList) cs then
    let cs1 := cs.drop 4
    let w1 := wsCount cs1
    if w1 = 0 then none else
      let cs2 := cs1.drop w1
      if startsCI ("TRANSACTIONS".toList) cs2 then
        let cs3 := cs2.drop 12
        let w2 := wsCount cs3
        if w2 = 0 then none else
          let cs4 := cs3.drop w2
          if startsCI ("WHERE".toList) cs4 then some (4 + w1 + 12 + w2 + 5)
          else none
      else none
  else none

/-- JS `RegExp.prototype.test`: does the matcher succeed at some position? -/
def testPat (m : List Char → Option Nat) : List Char → Bool
  | [] => (m []).isSome
  | c :: cs => (m (c :: cs)).isSome || testPat m cs

/-- JS global `String.prototype.replace`: scan left to right, replace each
non-overlapping match, resume after the match.  Fuel-based so that the
definition is structural (kernel-reducible); `fuel = length` suffices since
every step consumes at least one character. -/
def replaceAllAux (m : List Char → Option Nat) (repl : List Char) :
    Nat → List Char → List Char
  | _, [] => []
  | 0, cs => cs
  | fuel + 1, c :: rest =>
    match m (c :: rest) with
    | some (k + 1) => repl ++ replaceAllAux m repl fuel (rest.drop k)
    | _ => c :: replaceAllAux m repl fuel rest

def replaceAll (m : List Char → Option Nat) (repl : List Char) (cs : List Char) :
    List Char :=
  replaceAllAux m repl cs.length cs

/-- The scope-predicate rewrite of `executeRawQuery` (and, identically, of
`createSqlQueryTool` and the `textToSQL` safety pass). -/
def secureQuery (userId query : List Char) : List Char :=
  if testPat matchFT query then
    if testPat matchFTW query then
      replaceAll matchFTW
        (("FROM transactions WHERE user_id = \x27").toList ++ userId ++ ("\x27 AND").toList)
        query
    else
      replaceAll matchFT
        (("FROM transactions WHERE user_id = \x27").toList ++ userId ++ ("\x27").toList)
        query
  else query

/-- `query.trim().toUpperCase().startsWith('SELECT')`. -/
def startsSelect (query : List Char) : Bool :=
  startsWithList ("SELECT".toList) ((jsTrim query).map jsToUpper)

/-- `executeRawQuery userId query`: `.error` models the thrown
`Error('Only SELECT queries are allowed')`; `.ok q` carries the exact SQL
string `q` forwarded to the underlying store. -/
def executeRawQuery (userId query : List Char) : Except String (List Char) :=
  if !startsSelect query then .error "Only SELECT queries are allowed"
  else .ok (secureQuery userId query)

/-- The `sql_query` agent tool wraps the same guard and rewrite but returns
a structured failure payload instead of throwing. -/
inductive SqlToolReply where
  | failure (message : String)
  | success (executedQuery : List Char)
deriving DecidableEq, Repr

def sqlQueryTool (userId query : List Char) : SqlToolReply :=
  if !startsSelect query then
    .failure "Only SELECT queries are allowed for security reasons."
  else .success (secureQuery userId query)

/-- String-level wrapper for concrete evaluation. -/
def executeRawQueryS (userId query : String) : Except String String :=
  (executeRawQuery userId.toList query.toList).map fun cs => String.mk cs

def sqlQueryToolS (userId query : String) : SqlToolReply :=
  sqlQueryTool userId.toList query.toList

/-! ## Merchant Normalizer (`normalizeMerchant`, src/lib/db/index.ts)

```
let normalized = description.toUpperCase().trim()
for (const prefix of MERCHANT_PREFIXES)
  if (normalized.startsWith(prefix)) normalized = normalized.slice(prefix.length).trim()
for (const suffix of MERCHANT_SUFFIXES)
  normalized = normalized.replace(new RegExp(suffix + '$', 'i'), '').trim()
normalized = normalized.replace(/\s+/g, ' ').trim()
normalized = normalized.replace(/\s+\d{4,}$/, '').trim()
normalized = normalized.replace(/\s+[A-Z]{2,}\s+[A-Z]{2}$/, '').trim()
```

Each suffix regex is end-anchored, so `replace` removes the span from the
*leftmost* position whose entire remaining suffix matches the pattern
(matching at position `k` with a trailing `$` forces the pattern to consume
everything from `k` to the end).  `stripEnd full cs` therefore removes the
suffix starting at the smallest `k` with `full (cs.drop k) = true`. -/

def MERCHANT_PREFIXES : List String :=
  ["SQ *", "SQU*", "SQ*",
   "TST*", "TOAST*",
   "PP*", "PAYPAL *",
   "AMZN ", "AMAZON.COM*", "AMZ*",
   "GOOGLE *", "GOOGLE*",
   "APPLE.COM/", "APPLE *",
   "SP ", "SP*",
   "CKE*", "CHK*",
   "POS ",
   "DEBIT ",
   "PURCHASE ",
   "ACH ",
   "CHECKCARD ",
   "RECURRING "]

/-- Smallest index `k` such that the whole suffix `cs.drop k` satisfies
`full` (the leftmost match of an end-anchored regex). -/
def findK (full : List Char → Bool) : List Char → Option Nat
  | [] => if full [] then some 0 else none
  | c :: cs => if full (c :: cs) then some 0 else (findK full cs).map (· + 1)

/-- `replace(new RegExp(pat + '$'), '')` for a pattern whose full-suffix
match is decided by `full`. -/
def stripEnd (full : List Char → Bool) (cs : List Char) : List Char :=
  match findK full cs with
  | some k => cs.take k
  | none => cs

/-- Case-insensitive exact match against an uppercase literal
(an `i`-flagged literal regex forced to span the whole input). -/
def exactCI : List Char → List Char → Bool
  | [], [] => true
  | p :: ps, c :: cs => jsToUpper c = p && exactCI ps cs
  | _, _ => false

/-- `/ #\d+$/i` spanning the whole input: literal space, `#`, then one or
more digits up to the end. -/
def fullHashNum : List Char → Bool
  | ' ' :: '#' :: ds => !ds.isEmpty && ds.all isDigitChar
  | _ => false

/-- `/ \d{3,}$/i` spanning the whole input. -/
def fullNum3 : List Char → Bool
  | ' ' :: ds => ds.length ≥ 3 && ds.all isDigitChar
  | _ => false

/-- `/ [A-Z]{2} \d{5}$/i` spanning the whole input (the `i` flag makes
`[A-Z]` accept lowercase as well). -/
def fullStateZip : List Char → Bool
  | ' ' :: a :: b :: ' ' :: ds =>
    isLetterAZi a && isLetterAZi b && ds.length = 5 && ds.all isDigitChar
  | _ => false

/-- `/ \d{2}\/\d{2}$/i` spanning the whole input. -/
def fullDate : List Char → Bool
  | [' ', d1, d2, '/', d3, d4] =>
    isDigitChar d1 && isDigitChar d2 && isDigitChar d3 && isDigitChar d4
  | _ => false

/-- `/\s+\d{4,}$/` spanning the whole input: a whitespace run followed by at
least four digits.  Greedy `\s+` is exact here since `\s` and `\d` are
disjoint character classes. -/
def fullTrailingNum (cs : List Char) : Bool :=
  let w := wsCount cs
  if w = 0 then false
  else
    let ds := cs.drop w
    ds.length ≥ 4 && ds.all isDigitChar

/-- `/\s+[A-Z]{2,}\s+[A-Z]{2}$/` (no `i` flag) spanning the whole input.
Because `\s` and `[A-Z]` are disjoint classes, the only candidate
decomposition is by maximal runs; the final letter run must have exactly
two characters. -/
def fullCityState (cs : List Char) : Bool :=
  let w1 := wsCount cs
  if w1 = 0 then false
  else
    let r1 := cs.drop w1
    let l1 := (r1.takeWhile isUpperAZ).length
    if l1 < 2 then false
    else
      let r2 := r1.drop l1
      let w2 := wsCount r2
      if w2 = 0 then false
      else
        let r3 := r2.drop w2
        r3.length = 2 && r3.all isUpperAZ

/-- The `MERCHANT_SUFFIXES` pass, in declaration order. -/
def suffixMatchers : List (List Char → Bool) :=
  [exactCI (" LLC".toList), exactCI (" INC".toList), exactCI (" CORP".toList),
   exactCI (" CO".toList), exactCI (" LTD".toList),
   fullHashNum, fullNum3, fullStateZip, fullDate]

def stripMerchantStart (cs : List Char) : List Char :=
  MERCHANT_PREFIXES.foldl
    (fun n p => if startsWithList p.toList n then jsTrim (n.drop p.toList.length) else n)
    cs

def stripMerchantTail (cs : List Char) : List Char :=
  suffixMatchers.foldl (fun n m => jsTrim (stripEnd m n)) cs

/-- `replace(/\s+/g, ' ')`: collapse each maximal whitespace run to a single
space (fuel-based for kernel reducibility; each step consumes a character). -/
def collapseWsAux : Nat → List Char → List Char
  | _, [] => []
  | 0, cs => cs
  | fuel + 1, c :: cs =>
    if jsWs c then ' ' :: collapseWsAux fuel (cs.dropWhile jsWs)
    else c :: collapseWsAux fuel cs

def collapseWs (cs : List Char) : List Char := collapseWsAux cs.length cs

def normalizeMerchant (description : List Char) : List Char :=
  let n0 := jsTrim (description.map jsToUpper)
  let n1 := stripMerchantStart n0
  let n2 := stripMerchantTail n1
  let n3 := jsTrim (collapseWs n2)
  let n4 := jsTrim (stripEnd fullTrailingNum n3)
  jsTrim (stripEnd fullCityState n4)

def normalizeMerchantS (description : String) : String :=
  String.mk (normalizeMerchant description.toList)

/-- A string to which no stage of the normalizer applies: uppercase,
trimmed, no listed payment-processor mark at the start, no suffix pattern at
the end, already whitespace-collapsed.  `normalizeMerchant` fixes exactly
these strings. -/
def noStripApplies (cs : List Char) : Bool :=
  (cs.map jsToUpper == cs) && (jsTrim cs == cs) &&
  MERCHANT_PREFIXES.all (fun p => !startsWithList p.toList cs) &&
  suffixMatchers.all (fun m => (findK m cs).isNone) &&
  (collapseWs cs == cs) &&
  (findK fullTrailingNum cs).isNone && (findK fullCityState cs).isNone

/-! ## Categorization engine (src/lib/db/index.ts)

The category enumeration, the built-in Pattern Table, rule lookup, the AI
fallback and the single/batch orchestrators.  The Rule Store (a database
table) enters as an explicit list parameter; the hosted model enters as an
oracle parameter. -/

def CATEGORIES : List String :=
  ["Coffee", "Groceries", "Dining", "Transportation", "Gas", "Entertainment",
   "Shopping", "Healthcare", "Fitness", "Utilities", "Insurance",
   "Subscriptions", "Travel", "Education", "Personal Care", "Pets", "Home",
   "Transfer", "Cash Withdrawal", "Fees", "Income", "Other"]

/-- `EXTENDED_PATTERNS`, in declaration (= `Object.entries`) order. -/
def EXTENDED_PATTERNS : List (String × List String) :=
  [("Coffee", ["STARBUCKS", "COFFEE", "DUNKIN", "PEET", "CARIBOU", "COSTA", "TIM HORTON", "PHILZ", "BLUE BOTTLE", "CAFE", "ESPRESSO", "DUTCH BROS", "PEETS"]),
   ("Groceries", ["WHOLE FOODS", "SAFEWAY", "TRADER JOE", "KROGER", "WALMART", "COSTCO", "ALDI", "PUBLIX", "WEGMANS", "HEB", "MARKET", "GROCERY", "SUPERMARKET", "FOOD LION", "GIANT", "HARRIS TEETER", "SPROUTS", "FRESH", "FOODS", "INSTACART"]),
   ("Dining", ["RESTAURANT", "PIZZA", "MCDONALD", "CHIPOTLE", "SUBWAY", "BURGER", "TACO", "WENDY", "CHICK-FIL", "PANERA", "OLIVE GARDEN", "APPLEBEE", "IHOP", "DENNY", "GRUBHUB", "DOORDASH", "UBEREATS", "POSTMATES", "SEAMLESS", "YELP EAT", "CHILI", "OUTBACK", "RED ROBIN", "BUFFALO WILD", "FIVE GUYS", "IN-N-OUT", "SHAKE SHACK", "WINGSTOP", "DOMINO", "PAPA JOHN", "LITTLE CAESAR", "KFC", "POPEYE", "PANDA EXPRESS", "NOODLES", "SUSHI", "RAMEN", "PHO", "THAI", "INDIAN", "CHINESE", "MEXICAN", "ITALIAN", "GRILL", "BBQ", "STEAKHOUSE", "DINER", "BISTRO", "EATERY", "KITCHEN", "CANTINA", "TAVERN", "PUB", "BAR & GRILL"]),
   ("Transportation", ["UBER", "LYFT", "TAXI", "CAB", "METRO", "TRANSIT", "BUS", "TRAIN", "AMTRAK", "PARKING", "TOLL", "BIRD", "LIME", "SCOOTER"]),
   ("Gas", ["SHELL", "CHEVRON", "EXXON", "BP ", "MOBIL", "TEXACO", "ARCO", "CITGO", "SUNOCO", "MARATHON", "VALERO", "PHILLIPS 66", "GAS", "FUEL", "PETRO", "76 ", "SPEEDWAY", "WAWA", "QUIKTRIP", "RACETRAC", "CIRCLE K"]),
   ("Entertainment", ["NETFLIX", "SPOTIFY", "HULU", "DISNEY", "HBO", "AMAZON PRIME", "APPLE TV", "YOUTUBE", "PEACOCK", "PARAMOUNT", "MOVIE", "CINEMA", "THEATRE", "THEATER", "CONCERT", "TICKETMASTER", "STUBHUB", "EVENTBRITE", "STEAM", "PLAYSTATION", "XBOX", "NINTENDO", "GAMING", "AMC ", "REGAL", "FANDANGO", "TWITCH", "CRUNCHYROLL", "ESPN"]),
   ("Shopping", ["TARGET", "AMAZON", "EBAY", "ETSY", "BEST BUY", "APPLE STORE", "IKEA", "HOME DEPOT", "LOWES", "BED BATH", "MACYS", "NORDSTROM", "KOHLS", "JC PENNEY", "SEPHORA", "ULTA", "NIKE", "ADIDAS", "GAP", "OLD NAVY", "ZARA", "H&M", "FOREVER 21", "TJ MAXX", "ROSS", "MARSHALLS", "DOLLAR", "STAPLES", "OFFICE DEPOT", "MICHAELS", "HOBBY LOBBY", "JOANN", "LULULEMON", "FOOT LOCKER", "FINISH LINE", "DICKS SPORTING", "REI ", "BASS PRO", "CABELAS"]),
   ("Healthcare", ["PHARMACY", "CVS", "WALGREENS", "RITE AID", "DOCTOR", "HOSPITAL", "MEDICAL", "DENTAL", "VISION", "OPTOMETRY", "CLINIC", "HEALTH", "URGENT CARE", "KAISER", "BLUE CROSS", "AETNA", "UNITED HEALTH", "CIGNA", "QUEST DIAG", "LABCORP", "THERAPY", "COUNSELING", "MENTAL HEALTH", "CHIROPRACT"]),
   ("Fitness", ["GYM", "FITNESS", "PLANET FITNESS", "LA FITNESS", "24 HOUR FITNESS", "EQUINOX", "ORANGETHEORY", "CROSSFIT", "YOGA", "PELOTON", "CLASSPASS", "ANYTIME FITNESS", "GOLD GYM", "LIFETIME", "YMCA", "YWCA"]),
   ("Utilities", ["ELECTRIC", "GAS BILL", "WATER", "SEWER", "TRASH", "WASTE", "COMCAST", "XFINITY", "VERIZON", "AT&T", "T-MOBILE", "SPRINT", "INTERNET", "CABLE", "PG&E", "SOUTHERN CALIFORNIA EDISON", "CON EDISON", "DUKE ENERGY", "DOMINION", "NATIONAL GRID"]),
   ("Insurance", ["INSURANCE", "GEICO", "STATE FARM", "ALLSTATE", "PROGRESSIVE", "LIBERTY MUTUAL", "FARMERS", "USAA", "NATIONWIDE", "AFLAC", "METLIFE", "PRUDENTIAL"]),
   ("Subscriptions", ["SUBSCRIPTION", "MEMBERSHIP", "ADOBE", "MICROSOFT", "DROPBOX", "ICLOUD", "GOOGLE STORAGE", "GOOGLE ONE", "MEDIUM", "SUBSTACK", "PATREON", "GITHUB", "NOTION", "SLACK", "ZOOM", "CANVA", "GRAMMARLY", "LASTPASS", "1PASSWORD", "DASHLANE", "VPN", "NORDVPN", "EXPRESSVPN", "AUDIBLE", "KINDLE"]),
   ("Travel", ["AIRLINE", "UNITED", "DELTA", "AMERICAN AIRLINES", "SOUTHWEST", "JETBLUE", "SPIRIT", "FRONTIER", "HOTEL", "MARRIOTT", "HILTON", "HYATT", "AIRBNB", "VRBO", "BOOKING", "EXPEDIA", "KAYAK", "TRIVAGO", "HERTZ", "ENTERPRISE", "AVIS", "BUDGET", "NATIONAL CAR", "ALAMO", "TURO", "CRUISE"]),
   ("Education", ["UNIVERSITY", "COLLEGE", "SCHOOL", "TUITION", "COURSERA", "UDEMY", "SKILLSHARE", "MASTERCLASS", "LINKEDIN LEARNING", "DUOLINGO", "BOOKS", "TEXTBOOK", "CHEGG", "QUIZLET", "KHAN ACADEMY", "CODECADEMY", "UDACITY", "EDX", "PLURALSIGHT"]),
   ("Personal Care", ["SALON", "BARBER", "HAIR", "SPA", "MASSAGE", "NAIL", "BEAUTY", "WAXING", "LASER", "DERMATOLOG", "SKINCARE", "COSMETIC"]),
   ("Pets", ["PETCO", "PETSMART", "VET", "VETERINARY", "PET SUPPLIES", "CHEWY", "BANFIELD", "PET FOOD", "GROOMING"]),
   ("Home", ["RENT", "MORTGAGE", "PROPERTY", "MAINTENANCE", "REPAIR", "PLUMBER", "ELECTRICIAN", "CLEANING", "MAID", "HOUSEKEEPING", "LANDLORD", "APARTMENT", "CONDO", "HOA"]),
   ("Transfer", ["VENMO", "PAYPAL", "ZELLE", "CASH APP", "WIRE", "ACH", "TRANSFER", "SEND MONEY", "PAYMENT TO", "PAYMENT FROM"]),
   ("Cash Withdrawal", ["ATM", "CASH", "WITHDRAWAL", "CASH BACK"]),
   ("Fees", ["FEE", "CHARGE", "OVERDRAFT", "LATE FEE", "SERVICE CHARGE", "MAINTENANCE FEE", "MONTHLY FEE", "ANNUAL FEE", "INTEREST CHARGE", "FINANCE CHARGE"]),
   ("Income", ["PAYROLL", "SALARY", "DEPOSIT", "DIRECT DEP", "INTEREST", "DIVIDEND", "REFUND", "REIMBURSEMENT", "BONUS", "COMMISSION", "INCOME", "CREDIT", "CASHBACK", "REWARD"]),
   ("Other", [])]

inductive Confidence where
  | high | medium | low
deriving DecidableEq, Repr

inductive Method where
  | rule | pattern | ai | fallback
deriving DecidableEq, Repr

/-- `CategorizationResult`; the TS `category` is an unchecked string cast,
so it is a `String` here; an absent `suggestRule` key is `false`. -/
structure CategorizationResult where
  category : String
  confidence : Confidence
  method : Method
  normalizedMerchant : List Char
  suggestRule : Bool := false
deriving DecidableEq, Repr

/-- A stored `CategoryRule` row (pattern → category). -/
structure CategoryRule where
  rulePattern : String
  category : String
deriving DecidableEq, Repr

/-- First stored rule whose pattern occurs (case-insensitively) in the
normalized merchant — the `for (const rule of rules)` loop. -/
def findMatchingRule (rules : List CategoryRule) (upperDesc : List Char) :
    Option CategoryRule :=
  rules.find? fun r => containsList (r.rulePattern.toList.map jsToUpper) upperDesc

/-- First Pattern Table entry (in `Object.entries` order, inner lists in
order) whose substring occurs in the normalized merchant. -/
def findPatternEntry (upperDesc : List Char) : Option (String × String) :=
  EXTENDED_PATTERNS.findSome? fun e =>
    (e.2.find? fun p => containsList p.toList upperDesc).map fun p => (e.1, p)

/-- `categorizeByPattern` (rule store → Pattern Table → processor
heuristics); `none` models the `return null` "defer to AI" outcome. -/
def categorizeByPattern (rules : List CategoryRule) (description : List Char) :
    Option CategorizationResult :=
  let normalizedMerchant := normalizeMerchant description
  let upperDesc := normalizedMerchant.map jsToUpper
  match findMatchingRule rules upperDesc with
  | some r => some ⟨r.category, .high, .rule, normalizedMerchant, false⟩
  | none =>
    match findPatternEntry upperDesc with
    | some e => some ⟨e.1, .high, .pattern, normalizedMerchant, false⟩
    | none =>
      let u := description.map jsToUpper
      if startsWithList ("SQ *".toList) u || startsWithList ("SQU*".toList) u then
        none
      else if startsWithList ("TST*".toList) u || startsWithList ("TOAST*".toList) u then
        some ⟨"Dining", .medium, .pattern, normalizedMerchant, false⟩
      else none

/-- Outcome of the hosted-model call for a single merchant: `.error ()` is
any thrown transport/auth error, `.ok content` the reply text (a `null`
content behaves like `""` through `content?.trim() || 'Other'`). -/
def categorizeByAI (hasKey : Bool) (aiOutcome : Except Unit String)
    (normalizedMerchant : List Char) : CategorizationResult :=
  if !hasKey then ⟨"Other", .low, .fallback, normalizedMerchant, true⟩
  else
    match aiOutcome with
    | .error _ => ⟨"Other", .low, .fallback, normalizedMerchant, true⟩
    | .ok content =>
      let aiCategory :=
        if jsTrim content.toList = [] then "Other" else String.mk (jsTrim content.toList)
      let validCategory := if CATEGORIES.contains aiCategory then aiCategory else "Other"
      ⟨validCategory, if validCategory = "Other" then .low else .medium, .ai,
       normalizedMerchant, true⟩

/-- `smartCategorize`: pattern layer first, AI fallback otherwise.  The
oracle receives the normalized merchant (the data the prompt is built
from). -/
def smartCategorize (rules : List CategoryRule) (hasKey : Bool)
    (aiOutcome : List Char → Except Unit String) (description : List Char) :
    CategorizationResult :=
  match categorizeByPattern rules description with
  | some r => r
  | none =>
    let normalizedMerchant := normalizeMerchant description
    categorizeByAI hasKey (aiOutcome normalizedMerchant) normalizedMerchant

/-! ## Learning Loop (`learnFromCorrection`) -/

/-- Outcome of `insertCategoryRule`: success, uniqueness conflict
(Postgres error code 23505), or any other thrown error. -/
inductive InsertOutcome where
  | ok | conflict | otherErr
deriving DecidableEq, Repr

structure LearnResult where
  ruleCreated : Bool
  rulePattern : Option (List Char) := none
deriving DecidableEq, Repr

def learnFromCorrection (originalDescription : List Char)
    (_correctedCategory : String) (createRule : Bool)
    (insertOutcome : InsertOutcome) : LearnResult :=
  if !createRule then ⟨false, none⟩
  else
    let normalizedMerchant := normalizeMerchant originalDescription
    if normalizedMerchant.length < 3 || normalizedMerchant.length > 50 then
      ⟨false, none⟩
    else
      match insertOutcome with
      | .ok => ⟨true, some normalizedMerchant⟩
      | .conflict => ⟨false, some normalizedMerchant⟩
      | .otherErr => ⟨false, none⟩

/-! ## Batch categorization (`batchCategorize`)

The JS sparse `results` array is modelled as a `List (Option _)` of the
input length: a hole (`results[i]` still `undefined`) is `none`.  External
calls per 20-item batch are an oracle `List (List Char) → AIReply`: the
reply either parses to an array of category strings (possibly too short —
`categories[j]` is then `undefined` and coerced to `Other`), fails to
parse (`JSON.parse` throws, caught by the inner `catch`), or the call
itself throws (caught by the outer `catch`, which fills every still-unset
`needsAI` slot with the fallback and abandons the remaining batches). -/

inductive AIReply where
  | parsed (categories : List String)
  | parseFailure
  | callFailure
deriving DecidableEq, Repr

structure NeedsAIItem where
  index : Nat
  description : List Char
  normalized : List Char
deriving DecidableEq, Repr

/-- `l[i] = v` on a pre-sized list (in-bounds in every reachable state). -/
def setIdx : List α → Nat → α → List α
  | [], _, _ => []
  | _ :: t, 0, v => v :: t
  | h :: t, n + 1, v => h :: setIdx t n v

/-- `l[i]` as an option (out of bounds = `none`). -/
def getIdx : List α → Nat → Option α
  | [], _ => none
  | h :: _, 0 => some h
  | _ :: t, n + 1 => getIdx t n

/-- First pass: `results[i] = patternResult` when the pattern layer hits,
hole otherwise. -/
def firstPass (rules : List CategoryRule) (descriptions : List (List Char)) :
    List (Option CategorizationResult) :=
  descriptions.map (categorizeByPattern rules)

/-- The `needsAI` work list collected by the first pass. -/
def needsAIAux (rules : List CategoryRule) : Nat → List (List Char) → List NeedsAIItem
  | _, [] => []
  | i, d :: ds =>
    match categorizeByPattern rules d with
    | some _ => needsAIAux rules (i + 1) ds
    | none => ⟨i, d, normalizeMerchant d⟩ :: needsAIAux rules (i + 1) ds

def needsAIOf (rules : List CategoryRule) (descriptions : List (List Char)) :
    List NeedsAIItem :=
  needsAIAux rules 0 descriptions

/-- `needsAI.slice(i, i + 20)` batching (fuel-based; each step consumes at
least one element, so `fuel = length` suffices). -/
def chunksAux : Nat → List α → List (List α)
  | _, [] => []
  | 0, l => [l]
  | fuel + 1, x :: xs => (x :: xs.take 19) :: chunksAux fuel (xs.drop 19)

def chunks20 (l : List α) : List (List α) := chunksAux l.length l

/-- `(categories[j] && CATEGORIES.includes(categories[j])) ? categories[j]
: 'Other'` plus result construction (`copt = none` is the out-of-range
`undefined`; the empty string is falsy). -/
def mkBatchAiResult (copt : Option String) (normalized : List Char) :
    CategorizationResult :=
  let category :=
    match copt with
    | some c => if c ≠ "" && CATEGORIES.contains c then c else "Other"
    | none => "Other"
  ⟨category, if category = "Other" then .low else .medium, .ai, normalized, true⟩

def fallbackResult (normalized : List Char) : CategorizationResult :=
  ⟨"Other", .low, .fallback, normalized, true⟩

/-- The `for (let j = 0; j < batch.length; j++)` assignment loop on a
successfully parsed reply. -/
def assignParsed (cats : List String) :
    Nat → List NeedsAIItem → List (Option CategorizationResult) →
    List (Option CategorizationResult)
  | _, [], res => res
  | j, it :: b, res =>
    assignParsed cats (j + 1) b
      (setIdx res it.index (some (mkBatchAiResult (getIdx cats j) it.normalized)))

/-- The parse-failure `catch`: every item of the batch degrades to the
fallback result. -/
def assignFallback (b : List NeedsAIItem) (res : List (Option CategorizationResult)) :
    List (Option CategorizationResult) :=
  b.foldl (fun r it => setIdx r it.index (some (fallbackResult it.normalized))) res

/-- The outer `catch`: `if (!results[item.index])` fill with the fallback. -/
def fillMissing (items : List NeedsAIItem) (res : List (Option CategorizationResult)) :
    List (Option CategorizationResult) :=
  items.foldl
    (fun r it =>
      match getIdx r it.index with
      | some (some _) => r
      | _ => setIdx r it.index (some (fallbackResult it.normalized)))
    res

/-- Normal form of the batch assignment loops: a sequence of indexed slot
writes (`results[i] = v`) applied in order. -/
def writeSlots (ws : List (Nat × CategorizationResult))
    (res : List (Option CategorizationResult)) : List (Option CategorizationResult) :=
  ws.foldl (fun r w => setIdx r w.1 (some w.2)) res

/-- The slot writes performed by `assignParsed cats j b`. -/
def parsedWrites (cats : List String) : Nat → List NeedsAIItem →
    List (Nat × CategorizationResult)
  | _, [] => []
  | j, it :: b =>
    (it.index, mkBatchAiResult (getIdx cats j) it.normalized) :: parsedWrites cats (j + 1) b

def processBatches (oracle : List (List Char) → AIReply) (needsAI : List NeedsAIItem) :
    List (List NeedsAIItem) → List (Option CategorizationResult) →
    List (Option CategorizationResult)
  | [], res => res
  | b :: rest, res =>
    match oracle (b.map (·.normalized)) with
    | .parsed cats => processBatches oracle needsAI rest (assignParsed cats 0 b res)
    | .parseFailure => processBatches oracle needsAI rest (assignFallback b res)
    | .callFailure => fillMissing needsAI res

def batchCategorize (rules : List CategoryRule) (hasKey : Bool)
    (oracle : List (List Char) → AIReply) (descriptions : List (List Char)) :
    List (Option CategorizationResult) :=
  let results := firstPass rules descriptions
  let needsAI := needsAIOf rules descriptions
  if needsAI.length > 0 && hasKey then
    processBatches oracle needsAI (chunks20 needsAI) results
  else
    assignFallback needsAI results

/-! ## Retrieval layer (`searchSimilar`, both backings)

`VectorDocument` rows; embeddings are rational vectors and the similarity /
distance computations (whose numeric payload comes from the hosted
embedding service and floating-point cosine arithmetic) are oracle
parameters — the claims are about filtering, ordering and truncation,
which are independent of the score values. -/

structure VectorDoc where
  id : Nat
  userId : String
  docType : String
  sourceId : String
  text : String
  embedding : List ℚ
deriving DecidableEq, Repr

/-- `WHERE user_id = ? [AND doc_type IN (...)]` — the doc-type clause is
added only when `docTypes && docTypes.length > 0`. -/
def docTypeOk (docTypes : Option (List String)) (t : String) : Bool :=
  match docTypes with
  | none => true
  | some ts => if ts.length > 0 then ts.contains t else true

def scanFilter (table : List VectorDoc) (userId : String)
    (docTypes : Option (List String)) : List VectorDoc :=
  table.filter fun d => d.userId == userId && docTypeOk docTypes d.docType

/-- Stable insertion step for a comparator-driven sort (`keepFirst y x`:
`y` stays in front of `x`). -/
def insertBy (keepFirst : α → α → Bool) (x : α) : List α → List α
  | [] => [x]
  | y :: t => if keepFirst y x then y :: insertBy keepFirst x t else x :: y :: t

/-- Comparator sort (the semantics of the stable `Array.prototype.sort` /
the store's `ORDER BY`). -/
def sortBy (keepFirst : α → α → Bool) : List α → List α
  | [] => []
  | x :: t => insertBy keepFirst x (sortBy keepFirst t)

/-- Application-side backing (src/unnamed/part_004): scan the user's rows,
score by cosine similarity, filter by `minScore`, sort descending, slice
`topK`. -/
def searchSimilarApp (sim : List ℚ → List ℚ → ℚ) (table : List VectorDoc)
    (userId : String) (queryEmbedding : List ℚ) (topK : Nat)
    (docTypes : Option (List String)) (minScore : ℚ) : List (VectorDoc × ℚ) :=
  let rows := scanFilter table userId docTypes
  let results := rows.map fun d => (d, sim queryEmbedding d.embedding)
  (sortBy (fun y x => x.2 ≤ y.2) (results.filter fun r => minScore ≤ r.2)).take topK

/-- pgvector backing (src/unnamed/part_005): the store orders by the
distance operator ascending and applies `LIMIT topK`; the application then
filters `1 - distance ≥ minScore`. -/
def searchSimilarPg (dist : List ℚ → List ℚ → ℚ) (table : List VectorDoc)
    (userId : String) (queryEmbedding : List ℚ) (topK : Nat)
    (docTypes : Option (List String)) (minScore : ℚ) : List (VectorDoc × ℚ) :=
  let rows := scanFilter table userId docTypes
  let withDist := rows.map fun d => (d, dist queryEmbedding d.embedding)
  let ordered := (sortBy (fun y x => y.2 ≤ x.2) withDist).take topK
  (ordered.filter fun p => minScore ≤ 1 - p.2).map fun p => (p.1, 1 - p.2)

/-! ## Helper lemmas -/

/-- If the matcher succeeds at some position, `test` reports a match. -/
theorem testPat_of_matchAt (m : List Char → Option Nat) :
    ∀ (cs : List Char) (j : Nat), (m (cs.drop j)).isSome → testPat m cs = true := by
  intro cs
  induction cs with
  | nil => intro j h; simpa [testPat, List.drop_nil] using h
  | cons c t ih =>
    intro j h
    cases j with
    | zero => simp [testPat, List.drop] at h ⊢; exact Or.inl h
    | succ j =>
      simp only [List.drop_succ_cons] at h
      simp [testPat, ih j h]

/-- A global replace on a string with no match anywhere is the identity. -/
theorem replaceAllAux_no_match (m : List Char → Option Nat) (repl : List Char) :
    ∀ (fuel : Nat) (cs : List Char), (∀ j, m (cs.drop j) = none) →
      replaceAllAux m repl fuel cs = cs := by
  intro fuel
  induction fuel with
  | zero => intro cs _; cases cs <;> rfl
  | succ fuel ih =>
    intro cs h
    cases cs with
    | nil => rfl
    | cons c rest =>
      have h0 := h 0
      simp only [List.drop_zero] at h0
      simp only [replaceAllAux, h0]
      exact congrArg (c :: ·) (ih rest fun j => h (j + 1))

/-- A global replace on a string whose unique match sits at position `j`
and spans `k + 1` characters splices the replacement into that span. -/
theorem replaceAllAux_single (m : List Char → Option Nat) (repl : List Char) :
    ∀ (j : Nat) (cs : List Char) (fuel k : Nat), cs.length ≤ fuel →
      (∀ i, i < j → m (cs.drop i) = none) →
      m (cs.drop j) = some (k + 1) →
      j + (k + 1) ≤ cs.length →
      (∀ i, m ((cs.drop (j + (k + 1))).drop i) = none) →
      replaceAllAux m repl fuel cs = cs.take j ++ repl ++ cs.drop (j + (k + 1)) := by
  intro j
  induction j with
  | zero =>
    intro cs fuel k hfuel _ hm hlen htail
    cases cs with
    | nil => simp at hlen
    | cons c rest =>
      cases fuel with
      | zero => simp at hfuel
      | succ fuel =>
        simp only [List.drop_zero] at hm
        simp only [replaceAllAux, hm]
        have hrest : (c :: rest).drop (0 + (k + 1)) = rest.drop k := by
          simp [List.drop_succ_cons]
        rw [hrest] at htail
        have := replaceAllAux_no_match m repl fuel (rest.drop k) htail
        simp [this, hrest]
  | succ j ih =>
    intro cs fuel k hfuel hpre hm hlen htail
    cases cs with
    | nil => simp at hlen
    | cons c rest =>
      cases fuel with
      | zero => simp at hfuel
      | succ fuel =>
        have h0 := hpre 0 (Nat.succ_pos j)
        simp only [List.drop_zero] at h0
        simp only [replaceAllAux, h0]
        have hm' : m (rest.drop j) = some (k + 1) := by
          simpa [List.drop_succ_cons] using hm
        have htail' : ∀ i, m ((rest.drop (j + (k + 1))).drop i) = none := by
          intro i
          have : (c :: rest).drop (j + 1 + (k + 1)) = rest.drop (j + (k + 1)) := by
            have : j + 1 + (k + 1) = (j + (k + 1)) + 1 := by omega
            simp [this, List.drop_succ_cons]
          simpa [this] using htail i
        have hlen' : j + (k + 1) ≤ rest.length := by
          simp only [List.length_cons] at hlen; omega
        have hfuel' : rest.length ≤ fuel := by
          simp only [List.length_cons] at hfuel; omega
        have hpre' : ∀ i, i < j → m (rest.drop i) = none := by
          intro i hi
          have := hpre (i + 1) (by omega)
          simpa [List.drop_succ_cons] using this
        rw [ih rest fuel k hfuel' hpre' hm' hlen' htail']
        have : j + 1 + (k + 1) = (j + (k + 1)) + 1 := by omega
        simp [List.take_succ_cons, this, List.drop_succ_cons]

/-- `startsWithList` is determined by the first character: two patterns
with different heads cannot both match. -/
theorem startsWith_head_ne (a b : Char) (ps qs cs : List Char) (hab : a ≠ b)
    (h : startsWithList (a :: ps) cs = true) : startsWithList (b :: qs) cs = false := by
  cases cs with
  | nil => simp [startsWithList] at h
  | cons c t =>
    simp only [startsWithList, Bool.and_eq_true, decide_eq_true_eq] at h
    simp [startsWithList, h.1 ▸ hab.symm]

/-! ## Claim theorems: Query Safety Layer -/

/-- C1.  For a scope and a candidate that references the `transactions`
table exactly once (the reference being the displayed literal span, with no
other position matching `/FROM\s+transactions\b/i`), `secureQuery` appends
`WHERE user_id = '<scope>'` to the reference when no
`/FROM\s+transactions\s+WHERE/i` follows it, and injects
`user_id = '<scope>' AND` immediately after the `WHERE` when one does; in
particular the spec's end-to-end candidate for scope `user_42` is rewritten
exactly as displayed and forwarded by `executeRawQuery`. -/
theorem C1_scope_injection :
    (∀ (scope p s : List Char),
      (∀ i, i < (p ++ ("FROM transactions").toList ++ s).length → i ≠ p.length →
        matchFT ((p ++ ("FROM transactions").toList ++ s).drop i) = none) →
      matchFT (("FROM transactions").toList ++ s) = some 17 →
      testPat matchFTW (p ++ ("FROM transactions").toList ++ s) = false →
      secureQuery scope (p ++ ("FROM transactions").toList ++ s) =
        p ++ ("FROM transactions WHERE user_id = \x27").toList ++ scope ++
          ("\x27").toList ++ s) ∧
    (∀ (scope p s : List Char),
      (∀ i, i < (p ++ ("FROM transactions WHERE").toList ++ s).length → i ≠ p.length →
        matchFTW ((p ++ ("FROM transactions WHERE").toList ++ s).drop i) = none) →
      matchFTW (("FROM transactions WHERE").toList ++ s) = some 23 →
      testPat matchFT (p ++ ("FROM transactions WHERE").toList ++ s) = true →
      secureQuery scope (p ++ ("FROM transactions WHERE").toList ++ s) =
        p ++ ("FROM transactions WHERE user_id = \x27").toList ++ scope ++
          ("\x27 AND").toList ++ s) ∧
    executeRawQueryS "user_42"
        "SELECT category, SUM(amount) FROM transactions GROUP BY category" =
      Except.ok
        "SELECT category, SUM(amount) FROM transactions WHERE user_id = \x27user_42\x27 GROUP BY category" := by
  refine ⟨?_, ?_, rfl⟩
  · intro scope p s huniq hat hnw
    have hq : p ++ ("FROM transactions").toList ++ s =
        p ++ (("FROM transactions").toList ++ s) := List.append_assoc ..
    rw [hq] at huniq hnw ⊢
    have hqlen : (p ++ (("FROM transactions").toList ++ s)).length =
        p.length + 17 + s.length := by
      simp [List.length_append]; omega
    have hdropp : (p ++ (("FROM transactions").toList ++ s)).drop p.length =
        ("FROM transactions").toList ++ s := List.drop_left ..
    have hft : testPat matchFT (p ++ (("FROM transactions").toList ++ s)) = true :=
      testPat_of_matchAt matchFT _ p.length (by rw [hdropp, hat]; rfl)
    have hdrop17 : (p ++ (("FROM transactions").toList ++ s)).drop (p.length + 17) = s := by
      rw [← List.drop_drop, hdropp]
      exact List.drop_left ("FROM transactions").toList s
    have htail : ∀ i,
        matchFT (((p ++ (("FROM transactions").toList ++ s)).drop (p.length + 17)).drop i) =
          none := by
      intro i
      rw [List.drop_drop]
      by_cases hi : p.length + 17 + i < (p ++ (("FROM transactions").toList ++ s)).length
      · exact huniq (p.length + 17 + i) hi (by omega)
      · rw [List.drop_eq_nil_of_le (by omega)]
        rfl
    have hpre : ∀ i, i < p.length →
        matchFT ((p ++ (("FROM transactions").toList ++ s)).drop i) = none := by
      intro i hi
      exact huniq i (by omega) (by omega)
    have hat' : matchFT ((p ++ (("FROM transactions").toList ++ s)).drop p.length) =
        some (16 + 1) := by rw [hdropp]; exact hat
    unfold secureQuery
    rw [hft, hnw]
    simp only [Bool.false_eq_true, if_false, if_true]
    unfold replaceAll
    rw [replaceAllAux_single matchFT _ p.length _ _ 16 (Nat.le_refl _) hpre hat'
      (by omega) htail]
    rw [List.take_left, hdrop17]
    simp [List.append_assoc]
  · intro scope p s huniq hat hft
    have hq : p ++ ("FROM transactions WHERE").toList ++ s =
        p ++ (("FROM transactions WHERE").toList ++ s) := List.append_assoc ..
    rw [hq] at huniq hft ⊢
    have hqlen : (p ++ (("FROM transactions WHERE").toList ++ s)).length =
        p.length + 23 + s.length := by
      simp [List.length_append]; omega
    have hdropp : (p ++ (("FROM transactions WHERE").toList ++ s)).drop p.length =
        ("FROM transactions WHERE").toList ++ s := List.drop_left ..
    have hftw : testPat matchFTW (p ++ (("FROM transactions WHERE").toList ++ s)) = true :=
      testPat_of_matchAt matchFTW _ p.length (by rw [hdropp, hat]; rfl)
    have hdrop23 :
        (p ++ (("FROM transactions WHERE").toList ++ s)).drop (p.length + 23) = s := by
      rw [← List.drop_drop, hdropp]
      exact List.drop_left ("FROM transactions WHERE").toList s
    have htail : ∀ i,
        matchFTW
          (((p ++ (("FROM transactions WHERE").toList ++ s)).drop (p.length + 23)).drop i) =
          none := by
      intro i
      rw [List.drop_drop]
      by_cases hi :
          p.length + 23 + i < (p ++ (("FROM transactions WHERE").toList ++ s)).length
      · exact huniq (p.length + 23 + i) hi (by omega)
      · rw [List.drop_eq_nil_of_le (by omega)]
        rfl
    have hpre : ∀ i, i < p.length →
        matchFTW ((p ++ (("FROM transactions WHERE").toList ++ s)).drop i) = none := by
      intro i hi
      exact huniq i (by omega) (by omega)
    have hat' : matchFTW ((p ++ (("FROM transactions WHERE").toList ++ s)).drop p.length) =
        some (22 + 1) := by rw [hdropp]; exact hat
    unfold secureQuery
    rw [hft, hftw]
    simp only [if_true]
    unfold replaceAll
    rw [replaceAllAux_single matchFTW _ p.length _ _ 22 (Nat.le_refl _) hpre hat'
      (by omega) htail]
    rw [List.take_left, hdrop23]
    simp [List.append_assoc]

/-- Witness for C1: both rewrite shapes at concrete inputs. -/
theorem C1_scope_injection_witness :
    secureQuery ("u1".toList)
        (("SELECT * ".toList) ++ ("FROM transactions").toList ++ (" ORDER BY date".toList)) =
      ("SELECT * ".toList) ++ ("FROM transactions WHERE user_id = \x27").toList ++
        ("u1".toList) ++ ("\x27").toList ++ (" ORDER BY date".toList) ∧
    secureQuery ("u1".toList)
        (("SELECT * ".toList) ++ ("FROM transactions WHERE").toList ++ (" amount < 0".toList)) =
      ("SELECT * ".toList) ++ ("FROM transactions WHERE user_id = \x27").toList ++
        ("u1".toList) ++ ("\x27 AND").toList ++ (" amount < 0".toList) :=
  ⟨C1_scope_injection.1 ("u1".toList) ("SELECT * ".toList) (" ORDER BY date".toList)
      (by decide) (by decide) (by decide),
   C1_scope_injection.2.1 ("u1".toList) ("SELECT * ".toList) (" amount < 0".toList)
      (by decide) (by decide) (by decide)⟩

/-- C2 counterexample.  A candidate made of two semicolon-separated
statements whose first token is `SELECT` is *not* rejected: both
`executeRawQuery` and the `sql_query` tool forward it to the underlying
store (the trailing `DELETE` even picks up the scope rewrite on its
`FROM transactions` reference).  No semicolon check exists in the code. -/
theorem C2_multi_statement_not_rejected :
    executeRawQueryS "user_1" "SELECT 1; DELETE FROM transactions" =
      Except.ok "SELECT 1; DELETE FROM transactions WHERE user_id = \x27user_1\x27" ∧
    sqlQueryToolS "user_1" "SELECT 1; DELETE FROM transactions" =
      .success ("SELECT 1; DELETE FROM transactions WHERE user_id = \x27user_1\x27").toList := by
  exact ⟨rfl, rfl⟩

/-- C2 (amended).  `executeRawQuery` and the `sql_query` tool reject a
candidate exactly when its trimmed, uppercased form does not begin with
`SELECT`; in particular every candidate starting (after whitespace, in any
casing) with `INSERT`, `UPDATE` or `DELETE` is rejected before reaching the
store.  Multiple semicolon-separated statements are *not* screened. -/
theorem C2_reject_non_select :
    (∀ (scope q : List Char),
      (∃ e, executeRawQuery scope q = .error e) ↔ startsSelect q = false) ∧
    (∀ (scope q : List Char),
      (∃ msg, sqlQueryTool scope q = .failure msg) ↔ startsSelect q = false) ∧
    (∀ (scope q : List Char),
      startsWithList ("INSERT".toList) ((jsTrim q).map jsToUpper) = true →
      executeRawQuery scope q = .error "Only SELECT queries are allowed") ∧
    (∀ (scope q : List Char),
      startsWithList ("UPDATE".toList) ((jsTrim q).map jsToUpper) = true →
      executeRawQuery scope q = .error "Only SELECT queries are allowed") ∧
    (∀ (scope q : List Char),
      startsWithList ("DELETE".toList) ((jsTrim q).map jsToUpper) = true →
      executeRawQuery scope q = .error "Only SELECT queries are allowed") := by
  have herr : ∀ (scope q : List Char), startsSelect q = false →
      executeRawQuery scope q = .error "Only SELECT queries are allowed" := by
    intro scope q h
    unfold executeRawQuery
    rw [h]
    rfl
  refine ⟨?_, ?_, ?_, ?_, ?_⟩
  · intro scope q
    constructor
    · rintro ⟨e, he⟩
      unfold executeRawQuery at he
      by_contra hns
      rw [Bool.not_eq_false] at hns
      rw [hns] at he
      simp at he
    · intro h
      exact ⟨_, herr scope q h⟩
  · intro scope q
    constructor
    · rintro ⟨msg, he⟩
      unfold sqlQueryTool at he
      by_contra hns
      rw [Bool.not_eq_false] at hns
      rw [hns] at he
      simp at he
    · intro h
      refine ⟨"Only SELECT queries are allowed for security reasons.", ?_⟩
      unfold sqlQueryTool
      rw [h]
      rfl
  · intro scope q h
    exact herr scope q
      (startsWith_head_ne 'I' 'S' _ _ _ (by decide) h)
  · intro scope q h
    exact herr scope q
      (startsWith_head_ne 'U' 'S' _ _ _ (by decide) h)
  · intro scope q h
    exact herr scope q
      (startsWith_head_ne 'D' 'S' _ _ _ (by decide) h)

/-- Witness for C2 (amended): concrete rejected candidates in mixed casing
with leading whitespace. -/
theorem C2_reject_non_select_witness :
    executeRawQuery ("u".toList) ("  insert into t values (1)".toList) =
      .error "Only SELECT queries are allowed" ∧
    executeRawQuery ("u".toList) ("\t Update t SET a = 1".toList) =
      .error "Only SELECT queries are allowed" ∧
    executeRawQuery ("u".toList) ("delete from transactions".toList) =
      .error "Only SELECT queries are allowed" :=
  ⟨C2_reject_non_select.2.2.1 ("u".toList) ("  insert into t values (1)".toList) (by decide),
   C2_reject_non_select.2.2.2.1 ("u".toList) ("\t Update t SET a = 1".toList) (by decide),
   C2_reject_non_select.2.2.2.2 ("u".toList) ("delete from transactions".toList) (by decide)⟩

/-! ## Claim theorems: Merchant Normalizer -/

/-- C3 counterexample.  The normalizer does **not** return `JOE'S COFFEE`
for the spec's end-to-end input: the store-number strip (` #\d+$`) is
end-anchored and `#4521` is not terminal when that pass runs, and the
city/state strip only removes the final two words (` FRANCISCO CA`).  The
actual output keeps the store number and `SAN`. -/
theorem C3_normalizer_output_differs :
    normalizeMerchantS "SQ *JOE\x27S COFFEE #4521 SAN FRANCISCO CA" ≠
      "JOE\x27S COFFEE" := by
  decide

/-- C3 (amended).  `normalizeMerchant` maps the end-to-end input to
`JOE'S COFFEE #4521 SAN` (processor prefix stripped, store number and the
word `SAN` retained, `FRANCISCO CA` stripped), and — with no stored rule
matching — categorization still yields `{category: Coffee, confidence:
high, method: pattern}` via the Pattern Table substring `COFFEE`. -/
theorem C3_end_to_end_amended :
    normalizeMerchantS "SQ *JOE\x27S COFFEE #4521 SAN FRANCISCO CA" =
      "JOE\x27S COFFEE #4521 SAN" ∧
    categorizeByPattern [] ("SQ *JOE\x27S COFFEE #4521 SAN FRANCISCO CA".toList) =
      some ⟨"Coffee", .high, .pattern, ("JOE\x27S COFFEE #4521 SAN".toList), false⟩ := by
  exact ⟨rfl, rfl⟩

/-- C4 counterexample.  Normalization is not idempotent: on
`POS POS X` the first pass strips one `POS ` prefix, exposing a second one
that only the next pass removes. -/
theorem C4_not_idempotent :
    normalizeMerchantS (normalizeMerchantS "POS POS X") ≠ normalizeMerchantS "POS POS X" ∧
    normalizeMerchantS "POS POS X" = "POS X" ∧
    normalizeMerchantS "POS X" = "X" := by
  exact ⟨by decide, rfl, rfl⟩

/-- Generic fold that never changes its accumulator. -/
theorem foldl_fixed {α β : Type} (f : α → β → α) (l : List β) (a : α)
    (h : ∀ x ∈ l, f a x = a) : l.foldl f a = a := by
  induction l with
  | nil => rfl
  | cons x t ih =>
    rw [List.foldl_cons, h x (List.mem_cons_self x t)]
    exact ih fun y hy => h y (List.mem_cons_of_mem x hy)

/-- Strings to which no strip applies are fixed points of the normalizer. -/
theorem normalizeMerchant_fixed (cs : List Char) (h : noStripApplies cs = true) :
    normalizeMerchant cs = cs := by
  unfold noStripApplies at h
  simp only [Bool.and_eq_true, beq_iff_eq, List.all_eq_true, Bool.not_eq_true',
    Option.isNone_iff_eq_none] at h
  obtain ⟨⟨⟨⟨⟨⟨h1, h2⟩, h3⟩, h4⟩, h5⟩, h6⟩, h7⟩ := h
  unfold normalizeMerchant
  rw [h1, h2]
  have hstart : stripMerchantStart cs = cs := by
    unfold stripMerchantStart
    exact foldl_fixed _ _ _ fun p hp => by rw [h3 p hp]; rfl
  have htail : stripMerchantTail cs = cs := by
    unfold stripMerchantTail
    exact foldl_fixed _ _ _ fun m hm => by
      unfold stripEnd
      rw [h4 m hm, h2]
  simp only [hstart, htail, h5, h2, stripEnd, h6, h7]

/-- C4 (amended).  `normalizeMerchant` is not idempotent on all strings
(see the counterexample); it is idempotent whenever the first pass's output
is fully normalized — uppercase, trimmed, whitespace-collapsed, with no
listed processor prefix at the start and no suffix-pattern at the end — in
which case a second application changes nothing. -/
theorem C4_idempotent_on_normal_forms (x : List Char)
    (h : noStripApplies (normalizeMerchant x) = true) :
    normalizeMerchant (normalizeMerchant x) = normalizeMerchant x :=
  normalizeMerchant_fixed (normalizeMerchant x) h

/-- Witness for C4 (amended) at the spec's merchant string. -/
theorem C4_idempotent_on_normal_forms_witness :
    normalizeMerchant (normalizeMerchant ("SQ *JOE\x27S COFFEE".toList)) =
      normalizeMerchant ("SQ *JOE\x27S COFFEE".toList) :=
  C4_idempotent_on_normal_forms ("SQ *JOE\x27S COFFEE".toList) (by decide)

/-! ## Claim theorems: Learning Loop and rule precedence -/

/-- C7.  `learnFromCorrection` creates a rule exactly when the normalized
merchant length lies in `[3, 50]`: length 2 and 51 create none, lengths 3
and 50 create one when the insert succeeds; `createRule = false` is a
no-op, and a uniqueness conflict yields `ruleCreated = false` rather than
an error. -/
theorem C7_learning_guard :
    (∀ (d : List Char) (c : String) (o : InsertOutcome),
      (normalizeMerchant d).length = 2 →
      (learnFromCorrection d c true o).ruleCreated = false) ∧
    (∀ (d : List Char) (c : String),
      (normalizeMerchant d).length = 3 →
      learnFromCorrection d c true .ok = ⟨true, some (normalizeMerchant d)⟩) ∧
    (∀ (d : List Char) (c : String),
      (normalizeMerchant d).length = 50 →
      learnFromCorrection d c true .ok = ⟨true, some (normalizeMerchant d)⟩) ∧
    (∀ (d : List Char) (c : String) (o : InsertOutcome),
      (normalizeMerchant d).length = 51 →
      (learnFromCorrection d c true o).ruleCreated = false) ∧
    (∀ (d : List Char) (c : String) (o : InsertOutcome),
      learnFromCorrection d c false o = ⟨false, none⟩) ∧
    (∀ (d : List Char) (c : String),
      (learnFromCorrection d c true .conflict).ruleCreated = false) := by
  refine ⟨?_, ?_, ?_, ?_, ?_, ?_⟩
  · intro d c o h
    simp [learnFromCorrection, h]
  · intro d c h
    simp [learnFromCorrection, h]
  · intro d c h
    simp [learnFromCorrection, h]
  · intro d c o h
    simp [learnFromCorrection, h]
  · intro d c o
    simp [learnFromCorrection]
  · intro d c
    by_cases h : (normalizeMerchant d).length < 3 ∨ 50 < (normalizeMerchant d).length
    · rcases h with h | h <;> simp [learnFromCorrection, h]
    · push_neg at h
      simp [learnFromCorrection, Nat.not_lt.mpr h.1, Nat.not_lt.mpr h.2]

/-- Witness for C7 at all four boundary lengths, a no-op call and a
conflicting insert. -/
theorem C7_learning_guard_witness :
    (learnFromCorrection ("AB".toList) "Coffee" true .ok).ruleCreated = false ∧
    learnFromCorrection ("ABC".toList) "Coffee" true .ok =
      ⟨true, some (normalizeMerchant ("ABC".toList))⟩ ∧
    learnFromCorrection ("BBBBBBBBBBBBBBBBBBBBBBBBBBBBBBBBBBBBBBBBBBBBBBBBBB".toList)
        "Coffee" true .ok =
      ⟨true, some (normalizeMerchant
        ("BBBBBBBBBBBBBBBBBBBBBBBBBBBBBBBBBBBBBBBBBBBBBBBBBB".toList))⟩ ∧
    (learnFromCorrection ("QQQQQQQQQQQQQQQQQQQQQQQQQQQQQQQQQQQQQQQQQQQQQQQQQQQ".toList)
        "Coffee" true .ok).ruleCreated = false ∧
    learnFromCorrection ("STARBUCKS".toList) "Coffee" false .ok = ⟨false, none⟩ ∧
    (learnFromCorrection ("STARBUCKS".toList) "Coffee" true .conflict).ruleCreated = false :=
  ⟨C7_learning_guard.1 ("AB".toList) "Coffee" .ok (by decide),
   C7_learning_guard.2.1 ("ABC".toList) "Coffee" (by decide),
   C7_learning_guard.2.2.1 _ "Coffee" (by decide),
   C7_learning_guard.2.2.2.1 _ "Coffee" .ok (by decide),
   C7_learning_guard.2.2.2.2.1 ("STARBUCKS".toList) "Coffee" .ok,
   C7_learning_guard.2.2.2.2.2 ("STARBUCKS".toList) "Coffee"⟩

/-- C8.  Stored rules take precedence over the built-in Pattern Table: when
some stored rule's pattern occurs in the normalized merchant (the first
such rule being `r`) and some Pattern Table substring occurs as well, the
result is `r`'s category with confidence `high` and method `rule` — never
method `pattern`. -/
theorem C8_rule_precedence (rules : List CategoryRule) (d : List Char)
    (r : CategoryRule)
    (hrule : findMatchingRule rules ((normalizeMerchant d).map jsToUpper) = some r)
    (_hpat : findPatternEntry ((normalizeMerchant d).map jsToUpper) ≠ none) :
    categorizeByPattern rules d =
      some ⟨r.category, .high, .rule, normalizeMerchant d, false⟩ := by
  unfold categorizeByPattern
  simp only [hrule]

/-- Witness for C8: a stored rule `JOE → Dining` beats the Pattern Table
substring `COFFEE` on `JOE COFFEE`. -/
theorem C8_rule_precedence_witness :
    categorizeByPattern [⟨"JOE", "Dining"⟩] ("JOE COFFEE".toList) =
      some ⟨"Dining", .high, .rule, ("JOE COFFEE".toList), false⟩ :=
  C8_rule_precedence [⟨"JOE", "Dining"⟩] ("JOE COFFEE".toList) ⟨"JOE", "Dining"⟩
    (by decide) (by decide)

/-! ## Helper lemmas for the batch state (indexed slot writes) -/

theorem length_setIdx {α : Type} (l : List α) (i : Nat) (v : α) :
    (setIdx l i v).length = l.length := by
  induction l generalizing i with
  | nil => rfl
  | cons h t ih =>
    cases i with
    | zero => rfl
    | succ i => simpa [setIdx] using ih i

theorem getIdx_setIdx_self {α : Type} (l : List α) (i : Nat) (v : α)
    (h : i < l.length) : getIdx (setIdx l i v) i = some v := by
  induction l generalizing i with
  | nil => simp at h
  | cons hd t ih =>
    cases i with
    | zero => rfl
    | succ i =>
      simp only [List.length_cons] at h
      simpa [setIdx, getIdx] using ih i (by omega)

theorem getIdx_setIdx_ne {α : Type} (l : List α) (i j : Nat) (v : α)
    (h : i ≠ j) : getIdx (setIdx l i v) j = getIdx l j := by
  induction l generalizing i j with
  | nil => rfl
  | cons hd t ih =>
    cases i with
    | zero =>
      cases j with
      | zero => exact absurd rfl h
      | succ j => rfl
    | succ i =>
      cases j with
      | zero => rfl
      | succ j => simpa [setIdx, getIdx] using ih i j (by omega)

theorem getIdx_map {α β : Type} (f : α → β) (l : List α) (i : Nat) :
    getIdx (l.map f) i = (getIdx l i).map f := by
  induction l generalizing i with
  | nil => rfl
  | cons hd t ih =>
    cases i with
    | zero => rfl
    | succ i => simpa [getIdx] using ih i

theorem getIdx_eq_none_of_le {α : Type} (l : List α) (i : Nat)
    (h : l.length ≤ i) : getIdx l i = none := by
  induction l generalizing i with
  | nil => rfl
  | cons hd t ih =>
    cases i with
    | zero => simp at h
    | succ i =>
      simp only [List.length_cons] at h
      simpa [getIdx] using ih i (by omega)

theorem getIdx_isSome_of_lt {α : Type} (l : List α) (i : Nat)
    (h : i < l.length) : ∃ v, getIdx l i = some v := by
  induction l generalizing i with
  | nil => simp at h
  | cons hd t ih =>
    cases i with
    | zero => exact ⟨hd, rfl⟩
    | succ i =>
      simp only [List.length_cons] at h
      simpa [getIdx] using ih i (by omega)

theorem lt_length_of_getIdx_some {α : Type} (l : List α) (i : Nat) (v : α)
    (h : getIdx l i = some v) : i < l.length := by
  induction l generalizing i with
  | nil => simp [getIdx] at h
  | cons hd t ih =>
    cases i with
    | zero => simp
    | succ i =>
      simp only [getIdx] at h
      have := ih i h
      simp only [List.length_cons]
      omega

/-- Lists are equal when they agree index-wise. -/
theorem listExt {α : Type} (l₁ l₂ : List α) (hlen : l₁.length = l₂.length)
    (h : ∀ i, getIdx l₁ i = getIdx l₂ i) : l₁ = l₂ := by
  induction l₁ generalizing l₂ with
  | nil => cases l₂ with
    | nil => rfl
    | cons b t => simp at hlen
  | cons a t ih =>
    cases l₂ with
    | nil => simp at hlen
    | cons b t₂ =>
      have h0 := h 0
      simp only [getIdx, Option.some_inj] at h0
      subst h0
      simp only [List.length_cons, Nat.add_right_cancel_iff] at hlen
      exact congrArg (a :: ·) (ih t₂ hlen fun i => h (i + 1))

theorem length_writeSlots (ws : List (Nat × CategorizationResult))
    (res : List (Option CategorizationResult)) :
    (writeSlots ws res).length = res.length := by
  induction ws generalizing res with
  | nil => rfl
  | cons w t ih =>
    simp only [writeSlots, List.foldl_cons] at *
    rw [ih, length_setIdx]

theorem getIdx_writeSlots_notin (ws : List (Nat × CategorizationResult))
    (res : List (Option CategorizationResult)) (i : Nat)
    (h : ∀ w ∈ ws, w.1 ≠ i) :
    getIdx (writeSlots ws res) i = getIdx res i := by
  induction ws generalizing res with
  | nil => rfl
  | cons w t ih =>
    simp only [writeSlots, List.foldl_cons] at *
    rw [ih _ fun w hw => h w (List.mem_cons_of_mem _ hw),
      getIdx_setIdx_ne _ _ _ _ (h w (List.mem_cons_self w t))]

theorem getIdx_writeSlots_mem (ws : List (Nat × CategorizationResult))
    (res : List (Option CategorizationResult)) (i : Nat) (v : CategorizationResult)
    (hpw : ws.Pairwise fun a b => a.1 ≠ b.1) (hmem : (i, v) ∈ ws)
    (hlt : i < res.length) :
    getIdx (writeSlots ws res) i = some (some v) := by
  induction ws generalizing res with
  | nil => simp at hmem
  | cons w t ih =>
    simp only [writeSlots, List.foldl_cons] at *
    rcases List.mem_cons.mp hmem with heq | hmem'
    · subst heq
      show getIdx (writeSlots t (setIdx res i (some v))) i = some (some v)
      rw [getIdx_writeSlots_notin t _ _ fun w2 hw2 =>
        ((List.pairwise_cons.mp hpw).1 w2 hw2).symm]
      exact getIdx_setIdx_self res i (some v) hlt
    · exact ih _ (List.pairwise_cons.mp hpw).2 hmem' (by rw [length_setIdx]; exact hlt)

/-- Item-level corollaries of the write lemmas (membership is taken on the
item list so that unification never has to evaluate the written values). -/
theorem writeSlots_map_value (f : NeedsAIItem → CategorizationResult)
    (items : List NeedsAIItem) (res : List (Option CategorizationResult))
    (it : NeedsAIItem) (hpw : items.Pairwise fun a b => a.index ≠ b.index)
    (hmem : it ∈ items) (hlt : it.index < res.length) :
    getIdx (writeSlots (items.map fun it2 => (it2.index, f it2)) res) it.index =
      some (some (f it)) :=
  getIdx_writeSlots_mem _ _ _ _ (by rw [List.pairwise_map]; exact hpw)
    (List.mem_map_of_mem _ hmem) hlt

theorem writeSlots_keeps_filled (ws : List (Nat × CategorizationResult))
    (res : List (Option CategorizationResult)) (i : Nat)
    (h : ∃ v, getIdx res i = some (some v)) :
    ∃ v, getIdx (writeSlots ws res) i = some (some v) := by
  induction ws generalizing res with
  | nil => exact h
  | cons w t ih =>
    simp only [writeSlots, List.foldl_cons] at *
    refine ih _ ?_
    by_cases hwi : w.1 = i
    · subst hwi
      obtain ⟨v, hv⟩ := h
      exact ⟨w.2, getIdx_setIdx_self res w.1 (some w.2)
        (lt_length_of_getIdx_some res w.1 (some v) hv)⟩
    · rw [getIdx_setIdx_ne _ _ _ _ hwi]
      exact h

theorem writeSlots_covers (ws : List (Nat × CategorizationResult))
    (res : List (Option CategorizationResult)) (i : Nat) (v : CategorizationResult)
    (hmem : (i, v) ∈ ws) (hlt : i < res.length) :
    ∃ w, getIdx (writeSlots ws res) i = some (some w) := by
  induction ws generalizing res with
  | nil => simp at hmem
  | cons w t ih =>
    simp only [writeSlots, List.foldl_cons] at *
    rcases List.mem_cons.mp hmem with heq | hmem'
    · subst heq
      exact writeSlots_keeps_filled t _ i ⟨v, getIdx_setIdx_self res i (some v) hlt⟩
    · exact ih _ hmem' (by rw [length_setIdx]; exact hlt)

theorem writeSlots_map_covers (f : NeedsAIItem → CategorizationResult)
    (items : List NeedsAIItem) (res : List (Option CategorizationResult))
    (it : NeedsAIItem) (hmem : it ∈ items) (hlt : it.index < res.length) :
    ∃ v, getIdx (writeSlots (items.map fun it2 => (it2.index, f it2)) res) it.index =
      some (some v) :=
  writeSlots_covers _ _ _ (f it) (List.mem_map_of_mem _ hmem) hlt

theorem length_fillMissing (items : List NeedsAIItem)
    (res : List (Option CategorizationResult)) :
    (fillMissing items res).length = res.length := by
  induction items generalizing res with
  | nil => rfl
  | cons it t ih =>
    simp only [fillMissing, List.foldl_cons] at *
    cases hg : getIdx res it.index with
    | none => rw [ih, length_setIdx]
    | some o =>
      cases o with
      | none => rw [ih, length_setIdx]
      | some v => rw [ih]

/-- `fillMissing` never rewrites an already-assigned slot. -/
theorem fillMissing_keeps_value (items : List NeedsAIItem)
    (res : List (Option CategorizationResult)) (i : Nat) (v : CategorizationResult)
    (h : getIdx res i = some (some v)) :
    getIdx (fillMissing items res) i = some (some v) := by
  induction items generalizing res with
  | nil => exact h
  | cons it t ih =>
    simp only [fillMissing, List.foldl_cons] at *
    cases hg : getIdx res it.index with
    | none =>
      refine ih _ ?_
      have hne : it.index ≠ i := fun he => by rw [he, h] at hg; cases hg
      rw [getIdx_setIdx_ne _ _ _ _ hne]; exact h
    | some o =>
      cases o with
      | none =>
        refine ih _ ?_
        have hne : it.index ≠ i := fun he => by rw [he, h] at hg; cases hg
        rw [getIdx_setIdx_ne _ _ _ _ hne]; exact h
      | some w => exact ih _ h

/-- On a hole, `fillMissing` writes exactly the fallback result of the
item owning that index. -/
theorem fillMissing_value (items : List NeedsAIItem)
    (res : List (Option CategorizationResult)) (it : NeedsAIItem)
    (hpw : items.Pairwise fun a b => a.index ≠ b.index) (hmem : it ∈ items)
    (hslot : getIdx res it.index = some none) :
    getIdx (fillMissing items res) it.index =
      some (some (fallbackResult it.normalized)) := by
  induction items generalizing res with
  | nil => simp at hmem
  | cons it0 t ih =>
    simp only [fillMissing, List.foldl_cons] at *
    rcases List.mem_cons.mp hmem with heq | hmem'
    · subst heq
      rw [hslot]
      exact fillMissing_keeps_value t _ it.index _
        (getIdx_setIdx_self res it.index _
          (lt_length_of_getIdx_some res it.index _ hslot))
    · have hne : it0.index ≠ it.index :=
        (List.pairwise_cons.mp hpw).1 it hmem'
      cases hg : getIdx res it0.index with
      | none =>
        exact ih _ (List.pairwise_cons.mp hpw).2 hmem'
          (by rw [getIdx_setIdx_ne _ _ _ _ hne]; exact hslot)
      | some o =>
        cases o with
        | none =>
          exact ih _ (List.pairwise_cons.mp hpw).2 hmem'
            (by rw [getIdx_setIdx_ne _ _ _ _ hne]; exact hslot)
        | some w => exact ih _ (List.pairwise_cons.mp hpw).2 hmem' hslot

/-- `fillMissing` leaves no member's slot unassigned. -/
theorem fillMissing_fills (items : List NeedsAIItem)
    (res : List (Option CategorizationResult)) (it : NeedsAIItem)
    (hmem : it ∈ items) (hlt : it.index < res.length) :
    ∃ v, getIdx (fillMissing items res) it.index = some (some v) := by
  induction items generalizing res with
  | nil => simp at hmem
  | cons it0 t ih =>
    simp only [fillMissing, List.foldl_cons] at *
    rcases List.mem_cons.mp hmem with heq | hmem'
    · subst heq
      cases hg : getIdx res it.index with
      | none =>
        exact ⟨_, fillMissing_keeps_value t _ it.index _
          (getIdx_setIdx_self res it.index _ hlt)⟩
      | some o =>
        cases o with
        | none =>
          exact ⟨_, fillMissing_keeps_value t _ it.index _
            (getIdx_setIdx_self res it.index _ hlt)⟩
        | some w => exact ⟨w, fillMissing_keeps_value t _ it.index _ hg⟩
    · cases hg : getIdx res it0.index with
      | none => exact ih _ hmem' (by rw [length_setIdx]; exact hlt)
      | some o =>
        cases o with
        | none => exact ih _ hmem' (by rw [length_setIdx]; exact hlt)
        | some w => exact ih _ hmem' hlt

/-! ### Structure of the `needsAI` work list -/

theorem needsAIAux_index_bounds (rules : List CategoryRule) :
    ∀ (ds : List (List Char)) (i0 : Nat) (it : NeedsAIItem),
      it ∈ needsAIAux rules i0 ds → i0 ≤ it.index ∧ it.index < i0 + ds.length := by
  intro ds
  induction ds with
  | nil => intro i0 it h; simp [needsAIAux] at h
  | cons d t ih =>
    intro i0 it h
    simp only [needsAIAux] at h
    cases hp : categorizeByPattern rules d with
    | some r =>
      rw [hp] at h
      have := ih (i0 + 1) it h
      simp only [List.length_cons]
      omega
    | none =>
      rw [hp] at h
      rcases List.mem_cons.mp h with heq | hmem
      · subst heq; simp
      · have := ih (i0 + 1) it hmem
        simp only [List.length_cons]
        omega

theorem needsAIAux_pairwise (rules : List CategoryRule) :
    ∀ (ds : List (List Char)) (i0 : Nat),
      (needsAIAux rules i0 ds).Pairwise fun a b => a.index ≠ b.index := by
  intro ds
  induction ds with
  | nil => intro i0; simp [needsAIAux]
  | cons d t ih =>
    intro i0
    simp only [needsAIAux]
    cases hp : categorizeByPattern rules d with
    | some r => exact ih (i0 + 1)
    | none =>
      refine List.pairwise_cons.mpr ⟨?_, ih (i0 + 1)⟩
      intro it hmem
      have := needsAIAux_index_bounds rules t (i0 + 1) it hmem
      simp only
      omega

theorem needsAIAux_complete (rules : List CategoryRule) :
    ∀ (ds : List (List Char)) (i0 j : Nat) (d : List Char),
      getIdx ds j = some d → categorizeByPattern rules d = none →
      (⟨i0 + j, d, normalizeMerchant d⟩ : NeedsAIItem) ∈ needsAIAux rules i0 ds := by
  intro ds
  induction ds with
  | nil => intro i0 j d h; simp [getIdx] at h
  | cons hd t ih =>
    intro i0 j d hget hpat
    cases j with
    | zero =>
      simp only [getIdx, Option.some_inj] at hget
      subst hget
      simp only [needsAIAux, hpat, Nat.add_zero]
      exact List.mem_cons_self _ _
    | succ j =>
      simp only [getIdx] at hget
      simp only [needsAIAux]
      cases hp : categorizeByPattern rules hd with
      | some r =>
        have := ih (i0 + 1) j d hget hpat
        have harith : i0 + (j + 1) = i0 + 1 + j := by omega
        rw [harith]
        exact this
      | none =>
        have := ih (i0 + 1) j d hget hpat
        have harith : i0 + (j + 1) = i0 + 1 + j := by omega
        rw [harith]
        exact List.mem_cons_of_mem _ this

theorem needsAIAux_sound (rules : List CategoryRule) :
    ∀ (ds : List (List Char)) (i0 : Nat) (it : NeedsAIItem),
      it ∈ needsAIAux rules i0 ds →
      ∃ j, it.index = i0 + j ∧ getIdx ds j = some it.description ∧
        categorizeByPattern rules it.description = none ∧
        it.normalized = normalizeMerchant it.description := by
  intro ds
  induction ds with
  | nil => intro i0 it h; simp [needsAIAux] at h
  | cons hd t ih =>
    intro i0 it h
    simp only [needsAIAux] at h
    cases hp : categorizeByPattern rules hd with
    | some r =>
      rw [hp] at h
      obtain ⟨j, h1, h2, h3, h4⟩ := ih (i0 + 1) it h
      exact ⟨j + 1, by omega, h2, h3, h4⟩
    | none =>
      rw [hp] at h
      rcases List.mem_cons.mp h with heq | hmem
      · obtain ⟨itIdx, itDesc, itNorm⟩ := it
        simp only [NeedsAIItem.mk.injEq] at heq
        obtain ⟨e1, e2, e3⟩ := heq
        refine ⟨0, ?_, ?_, ?_, ?_⟩
        · show itIdx = i0 + 0
          omega
        · show getIdx (hd :: t) 0 = some itDesc
          rw [e2]
          rfl
        · show categorizeByPattern rules itDesc = none
          rw [e2]; exact hp
        · show itNorm = normalizeMerchant itDesc
          rw [e3, e2]
      · obtain ⟨j, h1, h2, h3, h4⟩ := ih (i0 + 1) it hmem
        exact ⟨j + 1, by omega, h2, h3, h4⟩

theorem join_chunksAux {α : Type} : ∀ (fuel : Nat) (l : List α),
    (chunksAux fuel l).flatten = l := by
  intro fuel
  induction fuel with
  | zero =>
    intro l
    cases l with
    | nil => rfl
    | cons x xs => simp [chunksAux]
  | succ fuel ih =>
    intro l
    cases l with
    | nil => rfl
    | cons x xs =>
      simp only [chunksAux, List.flatten_cons, ih]
      exact congrArg (x :: ·) (List.take_append_drop 19 xs)

theorem join_chunks20 {α : Type} (l : List α) : (chunks20 l).flatten = l :=
  join_chunksAux l.length l

/-! ### Reducing the assignment loops to slot writes -/

theorem assignFallback_eq (b : List NeedsAIItem)
    (res : List (Option CategorizationResult)) :
    assignFallback b res =
      writeSlots (b.map fun it => (it.index, fallbackResult it.normalized)) res := by
  unfold assignFallback writeSlots
  rw [List.foldl_map]

theorem assignParsed_eq (cats : List String) :
    ∀ (b : List NeedsAIItem) (j : Nat) (res : List (Option CategorizationResult)),
      assignParsed cats j b res = writeSlots (parsedWrites cats j b) res := by
  intro b
  induction b with
  | nil => intro j res; rfl
  | cons it t ih =>
    intro j res
    simp only [assignParsed, parsedWrites, writeSlots, List.foldl_cons]
    exact ih (j + 1) _

theorem parsedWrites_fst (cats : List String) :
    ∀ (b : List NeedsAIItem) (j : Nat) (w : Nat × CategorizationResult),
      w ∈ parsedWrites cats j b → ∃ it ∈ b, w.1 = it.index := by
  intro b
  induction b with
  | nil => intro j w h; simp [parsedWrites] at h
  | cons it t ih =>
    intro j w h
    rcases List.mem_cons.mp h with heq | hmem
    · exact ⟨it, List.mem_cons_self _ _, by rw [heq]⟩
    · obtain ⟨it2, h1, h2⟩ := ih (j + 1) w hmem
      exact ⟨it2, List.mem_cons_of_mem _ h1, h2⟩

theorem parsedWrites_covers (cats : List String) :
    ∀ (b : List NeedsAIItem) (j : Nat) (it : NeedsAIItem), it ∈ b →
      ∃ v, (it.index, v) ∈ parsedWrites cats j b := by
  intro b
  induction b with
  | nil => intro j it h; simp at h
  | cons it0 t ih =>
    intro j it h
    rcases List.mem_cons.mp h with heq | hmem
    · subst heq
      exact ⟨_, List.mem_cons_self _ _⟩
    · obtain ⟨v, hv⟩ := ih (j + 1) it hmem
      exact ⟨v, List.mem_cons_of_mem _ hv⟩

/-- With a reply array produced pointwise from the batch (the stubbed,
deterministic model), the parsed-assignment writes are exactly the per-item
stub results. -/
theorem parsedWrites_stub (aiCatS : List Char → String) :
    ∀ (b : List NeedsAIItem) (j : Nat) (cats : List String),
      (∀ jd it, getIdx b jd = some it →
        getIdx cats (j + jd) = some (aiCatS it.normalized)) →
      parsedWrites cats j b = b.map fun it =>
        (it.index, mkBatchAiResult (some (aiCatS it.normalized)) it.normalized) := by
  intro b
  induction b with
  | nil => intro j cats _; rfl
  | cons it t ih =>
    intro j cats h
    have h0 : getIdx cats j = some (aiCatS it.normalized) := by
      have := h 0 it rfl
      simpa using this
    simp only [parsedWrites, List.map_cons, h0]
    refine congrArg _ (ih (j + 1) cats ?_)
    intro jd it2 hget
    have := h (jd + 1) it2 hget
    have harith : j + (jd + 1) = j + 1 + jd := by omega
    rw [← harith]
    exact this

theorem writeSlots_append (A B : List (Nat × CategorizationResult))
    (res : List (Option CategorizationResult)) :
    writeSlots (A ++ B) res = writeSlots B (writeSlots A res) := by
  unfold writeSlots
  exact List.foldl_append _ _ A B

/-! ### Behaviour of the batch loop -/

theorem length_processBatches (oracle : List (List Char) → AIReply)
    (needsAI : List NeedsAIItem) :
    ∀ (bs : List (List NeedsAIItem)) (res : List (Option CategorizationResult)),
      (processBatches oracle needsAI bs res).length = res.length := by
  intro bs
  induction bs with
  | nil => intro res; rfl
  | cons b rest ih =>
    intro res
    cases horacle : oracle (b.map (·.normalized)) with
    | parsed cats =>
      simp only [processBatches, horacle]
      rw [ih, assignParsed_eq, length_writeSlots]
    | parseFailure =>
      simp only [processBatches, horacle]
      rw [ih, assignFallback_eq, length_writeSlots]
    | callFailure =>
      simp only [processBatches, horacle]
      exact length_fillMissing needsAI res

theorem processBatches_keeps_filled (oracle : List (List Char) → AIReply)
    (needsAI : List NeedsAIItem) :
    ∀ (bs : List (List NeedsAIItem)) (res : List (Option CategorizationResult)) (i : Nat),
      (∃ v, getIdx res i = some (some v)) →
      ∃ v, getIdx (processBatches oracle needsAI bs res) i = some (some v) := by
  intro bs
  induction bs with
  | nil => intro res i h; exact h
  | cons b rest ih =>
    intro res i h
    cases horacle : oracle (b.map (·.normalized)) with
    | parsed cats =>
      simp only [processBatches, horacle]
      rw [assignParsed_eq]
      exact ih _ i (writeSlots_keeps_filled _ _ i h)
    | parseFailure =>
      simp only [processBatches, horacle]
      rw [assignFallback_eq]
      exact ih _ i (writeSlots_keeps_filled _ _ i h)
    | callFailure =>
      simp only [processBatches, horacle]
      obtain ⟨v, hv⟩ := h
      exact ⟨v, fillMissing_keeps_value needsAI res i v hv⟩

/-- Batches whose items never touch index `i` leave an assigned value at
`i` exactly as it is (a `callFailure` fill also keeps assigned values). -/
theorem processBatches_keeps_value (oracle : List (List Char) → AIReply)
    (needsAI : List NeedsAIItem) :
    ∀ (bs : List (List NeedsAIItem)) (res : List (Option CategorizationResult))
      (i : Nat) (v : CategorizationResult),
      (∀ it ∈ bs.flatten, it.index ≠ i) →
      getIdx res i = some (some v) →
      getIdx (processBatches oracle needsAI bs res) i = some (some v) := by
  intro bs
  induction bs with
  | nil => intro res i v _ h; exact h
  | cons b rest ih =>
    intro res i v hne h
    have hneb : ∀ it ∈ b, it.index ≠ i := fun it hit =>
      hne it (by rw [List.flatten_cons]; exact List.mem_append_left _ hit)
    have hnerest : ∀ it ∈ rest.flatten, it.index ≠ i := fun it hit =>
      hne it (by rw [List.flatten_cons]; exact List.mem_append_right _ hit)
    cases horacle : oracle (b.map (·.normalized)) with
    | parsed cats =>
      simp only [processBatches, horacle]
      rw [assignParsed_eq]
      refine ih _ i v hnerest ?_
      rw [getIdx_writeSlots_notin _ _ _ ?_]
      · exact h
      · intro w hw
        obtain ⟨it, hit, he⟩ := parsedWrites_fst cats b 0 w hw
        rw [he]; exact hneb it hit
    | parseFailure =>
      simp only [processBatches, horacle]
      rw [assignFallback_eq]
      refine ih _ i v hnerest ?_
      rw [getIdx_writeSlots_notin _ _ _ ?_]
      · exact h
      · intro w hw
        obtain ⟨it, hit, he⟩ := List.mem_map.mp hw
        rw [← he]; exact hneb it hit
    | callFailure =>
      simp only [processBatches, horacle]
      exact fillMissing_keeps_value needsAI res i v h

/-- Every `needsAI` slot that is still pending is assigned by the time the
batch loop finishes, whichever replies the oracle produces. -/
theorem processBatches_total (oracle : List (List Char) → AIReply)
    (needsAI : List NeedsAIItem) :
    ∀ (bs : List (List NeedsAIItem)) (res : List (Option CategorizationResult)),
      (∀ it ∈ needsAI, it.index < res.length) →
      (∀ it ∈ needsAI, it ∈ bs.flatten ∨ ∃ v, getIdx res it.index = some (some v)) →
      ∀ it ∈ needsAI, ∃ v,
        getIdx (processBatches oracle needsAI bs res) it.index = some (some v) := by
  intro bs
  induction bs with
  | nil =>
    intro res _ hcov it hit
    rcases hcov it hit with habs | h
    · simp at habs
    · exact h
  | cons b rest ih =>
    intro res hidx hcov it hit
    cases horacle : oracle (b.map (·.normalized)) with
    | parsed cats =>
      simp only [processBatches, horacle]
      rw [assignParsed_eq]
      refine ih _ (fun it2 hit2 => by rw [length_writeSlots]; exact hidx it2 hit2)
        (fun it2 hit2 => ?_) it hit
      rcases hcov it2 hit2 with hj | hfill
      · rw [List.flatten_cons] at hj
        rcases List.mem_append.mp hj with hb | hrest
        · obtain ⟨v, hv⟩ := parsedWrites_covers cats b 0 it2 hb
          exact Or.inr (writeSlots_covers _ _ _ v hv (hidx it2 hit2))
        · exact Or.inl hrest
      · exact Or.inr (writeSlots_keeps_filled _ _ _ hfill)
    | parseFailure =>
      simp only [processBatches, horacle]
      rw [assignFallback_eq]
      refine ih _ (fun it2 hit2 => by rw [length_writeSlots]; exact hidx it2 hit2)
        (fun it2 hit2 => ?_) it hit
      rcases hcov it2 hit2 with hj | hfill
      · rw [List.flatten_cons] at hj
        rcases List.mem_append.mp hj with hb | hrest
        · refine Or.inr (writeSlots_covers _ _ _ (fallbackResult it2.normalized) ?_
            (hidx it2 hit2))
          exact List.mem_map.mpr ⟨it2, hb, rfl⟩
        · exact Or.inl hrest
      · exact Or.inr (writeSlots_keeps_filled _ _ _ hfill)
    | callFailure =>
      simp only [processBatches, horacle]
      exact fillMissing_fills needsAI res it hit (hidx it hit)

/-- With the deterministic stub oracle (one category string per merchant,
every batch parsing successfully), the whole batch loop is the sequence of
per-item stub writes. -/
theorem processBatches_stub (aiCatS : List Char → String) (needsAI : List NeedsAIItem) :
    ∀ (bs : List (List NeedsAIItem)) (res : List (Option CategorizationResult)),
      processBatches (fun ns => .parsed (ns.map aiCatS)) needsAI bs res =
        writeSlots (bs.flatten.map fun it =>
          (it.index, mkBatchAiResult (some (aiCatS it.normalized)) it.normalized)) res := by
  intro bs
  induction bs with
  | nil => intro res; rfl
  | cons b rest ih =>
    intro res
    simp only [processBatches, assignParsed_eq, List.flatten_cons, List.map_append,
      writeSlots_append]
    rw [parsedWrites_stub aiCatS b 0 _ ?_, ih]
    intro jd it hget
    rw [Nat.zero_add, getIdx_map, getIdx_map, hget]
    rfl

/-- If the batch containing `it` gets an unparsable reply, `it`\x27s slot
ends up holding exactly the fallback result — whether that batch is
reached, or an earlier batch\x27s call already crashed (the outer catch then
writes the same fallback value). -/
theorem processBatches_parsefail_value (oracle : List (List Char) → AIReply)
    (needsAI : List NeedsAIItem) (it : NeedsAIItem)
    (hndA : needsAI.Pairwise fun a b => a.index ≠ b.index)
    (hmemN : it ∈ needsAI) :
    ∀ (pre : List (List NeedsAIItem)) (b : List NeedsAIItem)
      (post : List (List NeedsAIItem)) (res : List (Option CategorizationResult)),
      ((pre ++ b :: post).flatten.Pairwise fun a b => a.index ≠ b.index) →
      it ∈ b →
      oracle (b.map (·.normalized)) = .parseFailure →
      getIdx res it.index = some none →
      getIdx (processBatches oracle needsAI (pre ++ b :: post) res) it.index =
        some (some (fallbackResult it.normalized)) := by
  intro pre
  induction pre with
  | nil =>
    intro b post res hpw hit horacle hslot
    have hpw2 : ((b ++ post.flatten).Pairwise fun a b => a.index ≠ b.index) := by
      simpa using hpw
    have hb : b.Pairwise fun a b => a.index ≠ b.index :=
      (List.pairwise_append.mp hpw2).1
    have hdisj := (List.pairwise_append.mp hpw2).2.2
    have hlt : it.index < res.length :=
      lt_length_of_getIdx_some res it.index none hslot
    simp only [List.nil_append, processBatches, horacle]
    rw [assignFallback_eq]
    have hwritten :
        getIdx (writeSlots (b.map fun it2 => (it2.index, fallbackResult it2.normalized)) res)
          it.index = some (some (fallbackResult it.normalized)) := by
      refine getIdx_writeSlots_mem _ _ _ _ ?_ (List.mem_map.mpr ⟨it, hit, rfl⟩) hlt
      rw [List.pairwise_map]
      exact hb
    refine processBatches_keeps_value oracle needsAI post _ it.index _ ?_ hwritten
    intro it2 hit2 he
    exact hdisj it hit it2 hit2 he.symm
  | cons b0 pre2 ih =>
    intro b post res hpw hit horacle hslot
    have hpw2 : ((b0 ++ (pre2 ++ b :: post).flatten).Pairwise
        fun a b => a.index ≠ b.index) := by
      simpa using hpw
    have hpwrest := (List.pairwise_append.mp hpw2).2.1
    have hdisj := (List.pairwise_append.mp hpw2).2.2
    have hitrest : it ∈ (pre2 ++ b :: post).flatten := by
      rw [List.flatten_append, List.flatten_cons]
      exact List.mem_append_right _ (List.mem_append_left _ hit)
    have hneb0 : ∀ it2 ∈ b0, it2.index ≠ it.index := fun it2 hit2 =>
      hdisj it2 hit2 it hitrest
    rw [List.cons_append]
    cases horacle0 : oracle (b0.map (·.normalized)) with
    | parsed cats =>
      simp only [processBatches, horacle0]
      rw [assignParsed_eq]
      refine ih b post _ hpwrest hit horacle ?_
      rw [getIdx_writeSlots_notin _ _ _ ?_]
      · exact hslot
      · intro w hw
        obtain ⟨it2, hit2, he⟩ := parsedWrites_fst cats b0 0 w hw
        rw [he]; exact hneb0 it2 hit2
    | parseFailure =>
      simp only [processBatches, horacle0]
      rw [assignFallback_eq]
      refine ih b post _ hpwrest hit horacle ?_
      rw [getIdx_writeSlots_notin _ _ _ ?_]
      · exact hslot
      · intro w hw
        obtain ⟨it2, hit2, he⟩ := List.mem_map.mp hw
        rw [← he]; exact hneb0 it2 hit2
    | callFailure =>
      simp only [processBatches, horacle0]
      exact fillMissing_value needsAI res it hndA hmemN hslot

/-- Unfolding of `batchCategorize` (zeta-reduced). -/
theorem batchCategorize_eq (rules : List CategoryRule) (hasKey : Bool)
    (oracle : List (List Char) → AIReply) (ds : List (List Char)) :
    batchCategorize rules hasKey oracle ds =
      if (needsAIOf rules ds).length > 0 && hasKey then
        processBatches oracle (needsAIOf rules ds) (chunks20 (needsAIOf rules ds))
          (firstPass rules ds)
      else assignFallback (needsAIOf rules ds) (firstPass rules ds) := rfl

/-- Slots of the first pass hold exactly the pattern-layer outcome. -/
theorem getIdx_firstPass (rules : List CategoryRule) (ds : List (List Char)) (i : Nat) :
    getIdx (firstPass rules ds) i = (getIdx ds i).map (categorizeByPattern rules) :=
  getIdx_map _ ds i

/-- `needsAI` indices never collide with a pattern-resolved slot. -/
theorem needsAI_index_ne_of_pattern_some (rules : List CategoryRule)
    (ds : List (List Char)) (i : Nat) (d : List Char) (r : CategorizationResult)
    (hd : getIdx ds i = some d) (hp : categorizeByPattern rules d = some r) :
    ∀ it ∈ needsAIOf rules ds, it.index ≠ i := by
  intro it hit he
  obtain ⟨j, h1, h2, h3, _⟩ := needsAIAux_sound rules ds 0 it hit
  have hj : j = i := by omega
  subst hj
  rw [hd] at h2
  cases h2
  rw [h3] at hp
  cases hp

/-- A reply category accepted verbatim in a parsed batch coincides with the
single-call validation of the same reply (for trim-stable reply strings). -/
theorem mkBatchAiResult_eq_single (r : String) (n : List Char)
    (htrim : jsTrim r.toList = r.toList) :
    mkBatchAiResult (some r) n = categorizeByAI true (.ok r) n := by
  have hmk : String.mk r.toList = r := by cases r; rfl
  by_cases hr : r = ""
  · subst hr; rfl
  · have hnil : r.toList ≠ [] := fun hc => hr (by rw [← hmk, hc])
    have htrim2 : jsTrim r.data = r.data := htrim
    have hnil2 : ¬(r.data = []) := hnil
    have hmk2 : String.mk r.data = r := hmk
    cases hcont : CATEGORIES.contains r with
    | true =>
      have hmem2 : r ∈ CATEGORIES := by simpa using hcont
      simp [mkBatchAiResult, categorizeByAI, htrim2, hnil2, hmk2, hr, hmem2]
    | false =>
      have hmem2 : r ∉ CATEGORIES := by simpa using hcont
      simp [mkBatchAiResult, categorizeByAI, htrim2, hnil2, hmk2, hr, hmem2]

/-! ## Claim theorems: AI fallback and batch categorization -/

/-- C10.  `batchCategorize` is total: the result has exactly one slot per
input description and every slot is assigned — pattern hits in the first
pass, parsed replies (including short ones) in the batch loop, fallback
results for parse failures, and the outer catch fills everything still
missing when the external call throws partway through. -/
theorem C10_batch_totality (rules : List CategoryRule) (hasKey : Bool)
    (oracle : List (List Char) → AIReply) (ds : List (List Char)) :
    (batchCategorize rules hasKey oracle ds).length = ds.length ∧
    ∀ i, i < ds.length →
      ∃ r, getIdx (batchCategorize rules hasKey oracle ds) i = some (some r) := by
  have hlen0 : (firstPass rules ds).length = ds.length := List.length_map ds _
  have hidx : ∀ it ∈ needsAIOf rules ds, it.index < (firstPass rules ds).length := by
    intro it hit
    have := needsAIAux_index_bounds rules ds 0 it hit
    omega
  constructor
  · rw [batchCategorize_eq]
    by_cases hc : ((needsAIOf rules ds).length > 0 && hasKey) = true
    · rw [if_pos hc, length_processBatches, hlen0]
    · rw [if_neg hc, assignFallback_eq, length_writeSlots, hlen0]
  · intro i hi
    obtain ⟨d, hd⟩ := getIdx_isSome_of_lt ds i hi
    rw [batchCategorize_eq]
    cases hp : categorizeByPattern rules d with
    | some r =>
      have hfill0 : getIdx (firstPass rules ds) i = some (some r) := by
        rw [getIdx_firstPass, hd, Option.map_some', hp]
      by_cases hc : ((needsAIOf rules ds).length > 0 && hasKey) = true
      · rw [if_pos hc]
        exact processBatches_keeps_filled oracle _ _ _ i ⟨r, hfill0⟩
      · rw [if_neg hc, assignFallback_eq]
        exact writeSlots_keeps_filled _ _ i ⟨r, hfill0⟩
    | none =>
      obtain ⟨nd, hnd⟩ : ∃ nd, normalizeMerchant d = nd := ⟨_, rfl⟩
      have hmem : (⟨i, d, nd⟩ : NeedsAIItem) ∈ needsAIOf rules ds := by
        have := needsAIAux_complete rules ds 0 i d hd hp
        rw [Nat.zero_add, hnd] at this
        exact this
      by_cases hc : ((needsAIOf rules ds).length > 0 && hasKey) = true
      · rw [if_pos hc]
        have h2 : ∃ v, getIdx (processBatches oracle (needsAIOf rules ds)
            (chunks20 (needsAIOf rules ds)) (firstPass rules ds)) i = some (some v) :=
          processBatches_total oracle (needsAIOf rules ds)
            (chunks20 (needsAIOf rules ds)) (firstPass rules ds) hidx
            (fun it2 hit2 => Or.inl (by rw [join_chunks20]; exact hit2))
            ⟨i, d, nd⟩ hmem
        exact h2
      · rw [if_neg hc, assignFallback_eq]
        have h2 : ∃ v, getIdx (writeSlots ((needsAIOf rules ds).map fun it =>
            (it.index, fallbackResult it.normalized)) (firstPass rules ds)) i =
            some (some v) :=
          writeSlots_map_covers (fun it2 => fallbackResult it2.normalized) _ _
            ⟨i, d, nd⟩ hmem (by rw [hlen0]; exact hi)
        exact h2

/-- Witness for C10 at a concrete upload: two merchants, one pattern hit,
one needing AI, with an oracle whose reply array is too short. -/
theorem C10_batch_totality_witness :
    (batchCategorize [] true (fun _ => .parsed []) [("ZZZZ".toList), ("STARBUCKS".toList)]).length = 2 ∧
    ∃ r, getIdx (batchCategorize [] true (fun _ => .parsed [])
      [("ZZZZ".toList), ("STARBUCKS".toList)]) 0 = some (some r) :=
  ⟨(C10_batch_totality [] true (fun _ => .parsed [])
      [("ZZZZ".toList), ("STARBUCKS".toList)]).1,
   (C10_batch_totality [] true (fun _ => .parsed [])
      [("ZZZZ".toList), ("STARBUCKS".toList)]).2 0 (by decide)⟩

/-- C6.  The AI fallback never surfaces a hard error: missing credentials
and thrown transport/auth errors both produce the low-confidence fallback
result in `categorizeByAI`, and a batch whose reply fails to parse
degrades every item of that batch to the fallback result instead of
failing the whole call. -/
theorem C6_ai_failure_degrades :
    (∀ (reply : Except Unit String) (n : List Char),
      categorizeByAI false reply n = ⟨"Other", .low, .fallback, n, true⟩) ∧
    (∀ (n : List Char),
      categorizeByAI true (.error ()) n = ⟨"Other", .low, .fallback, n, true⟩) ∧
    (∀ (rules : List CategoryRule) (oracle : List (List Char) → AIReply)
      (ds : List (List Char)) (b : List NeedsAIItem) (it : NeedsAIItem),
      b ∈ chunks20 (needsAIOf rules ds) → it ∈ b →
      oracle (b.map (·.normalized)) = .parseFailure →
      getIdx (batchCategorize rules true oracle ds) it.index =
        some (some (fallbackResult it.normalized))) := by
  refine ⟨fun reply n => rfl, fun n => rfl, ?_⟩
  intro rules oracle ds b it hb hit horacle
  have hndA := needsAIAux_pairwise rules ds 0
  have hmemN : it ∈ needsAIOf rules ds := by
    rw [← join_chunks20 (needsAIOf rules ds)]
    exact List.mem_flatten.mpr ⟨b, hb, hit⟩
  obtain ⟨pre, post, hsplit⟩ := List.append_of_mem hb
  have hpw : ((pre ++ b :: post).flatten.Pairwise fun a b => a.index ≠ b.index) := by
    rw [← hsplit, join_chunks20]
    exact hndA
  have hslot : getIdx (firstPass rules ds) it.index = some none := by
    obtain ⟨j, h1, h2, h3, _⟩ := needsAIAux_sound rules ds 0 it hmemN
    rw [getIdx_firstPass, h1, Nat.zero_add, h2, Option.map_some', h3]
  have hpos : 0 < (needsAIOf rules ds).length :=
    List.length_pos.mpr (List.ne_nil_of_mem hmemN)
  have hc : ((needsAIOf rules ds).length > 0 && true) = true := by
    simp [hpos]
  rw [batchCategorize_eq, if_pos hc, hsplit]
  exact processBatches_parsefail_value oracle (needsAIOf rules ds) it hndA hmemN
    pre b post (firstPass rules ds) hpw hit horacle hslot

/-- Witness for C6: a concrete no-key call, a thrown single call, and a
concrete parse-failing batch. -/
theorem C6_ai_failure_degrades_witness :
    categorizeByAI false (.ok "Coffee") ("ZZZZ".toList) =
      ⟨"Other", .low, .fallback, ("ZZZZ".toList), true⟩ ∧
    categorizeByAI true (.error ()) ("ZZZZ".toList) =
      ⟨"Other", .low, .fallback, ("ZZZZ".toList), true⟩ ∧
    getIdx (batchCategorize [] true (fun _ => .parseFailure) [("ZZZZ".toList)])
        (⟨0, ("ZZZZ".toList), ("ZZZZ".toList)⟩ : NeedsAIItem).index =
      some (some (fallbackResult ("ZZZZ".toList))) :=
  ⟨C6_ai_failure_degrades.1 (.ok "Coffee") ("ZZZZ".toList),
   C6_ai_failure_degrades.2.1 ("ZZZZ".toList),
   C6_ai_failure_degrades.2.2 [] (fun _ => .parseFailure) [("ZZZZ".toList)]
     [⟨0, ("ZZZZ".toList), ("ZZZZ".toList)⟩] ⟨0, ("ZZZZ".toList), ("ZZZZ".toList)⟩
     (by decide) (by decide) rfl⟩

/-- C5.  With a deterministic stubbed model (a fixed category-string per
normalized merchant, used by both call shapes) and descriptions none of
which the rule/pattern layer resolves, batch categorization returns
exactly the per-item results of single-item `smartCategorize` — the same
category (indeed the same full result) at every index, with or without
credentials. -/
theorem C5_batch_single_equivalence (rules : List CategoryRule) (hasKey : Bool)
    (aiCatS : List Char → String) (ds : List (List Char))
    (_hnomatch : ∀ d ∈ ds, categorizeByPattern rules d = none)
    (htrim : ∀ n, jsTrim (aiCatS n).toList = (aiCatS n).toList) :
    batchCategorize rules hasKey (fun ns => .parsed (ns.map aiCatS)) ds =
      ds.map fun d =>
        some (smartCategorize rules hasKey (fun n => .ok (aiCatS n)) d) := by
  have hlen0 : (firstPass rules ds).length = ds.length := List.length_map ds _
  have hndA := needsAIAux_pairwise rules ds 0
  have hlenB : (batchCategorize rules hasKey (fun ns => .parsed (ns.map aiCatS)) ds).length =
      ds.length := by
    rw [batchCategorize_eq]
    by_cases hc : ((needsAIOf rules ds).length > 0 && hasKey) = true
    · rw [if_pos hc, length_processBatches, hlen0]
    · rw [if_neg hc, assignFallback_eq, length_writeSlots, hlen0]
  refine listExt _ _ ?_ fun i => ?_
  · rw [hlenB, List.length_map]
  by_cases hi : i < ds.length
  · obtain ⟨d, hd⟩ := getIdx_isSome_of_lt ds i hi
    have hrhs : getIdx (ds.map fun d =>
        some (smartCategorize rules hasKey (fun n => .ok (aiCatS n)) d)) i =
        some (some (smartCategorize rules hasKey (fun n => .ok (aiCatS n)) d)) := by
      rw [getIdx_map, hd, Option.map_some']
    cases hp : categorizeByPattern rules d with
    | some r =>
      have hsmart : smartCategorize rules hasKey (fun n => .ok (aiCatS n)) d = r := by
        unfold smartCategorize
        rw [hp]
      have hne := needsAI_index_ne_of_pattern_some rules ds i d r hd hp
      have hfill0 : getIdx (firstPass rules ds) i = some (some r) := by
        rw [getIdx_firstPass, hd, Option.map_some', hp]
      rw [hrhs, hsmart, batchCategorize_eq]
      by_cases hc : ((needsAIOf rules ds).length > 0 && hasKey) = true
      · rw [if_pos hc, processBatches_stub, join_chunks20, getIdx_writeSlots_notin _ _ _ ?_]
        · exact hfill0
        · intro w hw
          obtain ⟨it2, hit2, he⟩ := List.mem_map.mp hw
          rw [← he]
          exact hne it2 hit2
      · rw [if_neg hc, assignFallback_eq, getIdx_writeSlots_notin _ _ _ ?_]
        · exact hfill0
        · intro w hw
          obtain ⟨it2, hit2, he⟩ := List.mem_map.mp hw
          rw [← he]
          exact hne it2 hit2
    | none =>
      obtain ⟨nd, hnd⟩ : ∃ nd, normalizeMerchant d = nd := ⟨_, rfl⟩
      have hmem : (⟨i, d, nd⟩ : NeedsAIItem) ∈ needsAIOf rules ds := by
        have := needsAIAux_complete rules ds 0 i d hd hp
        rw [Nat.zero_add, hnd] at this
        exact this
      have hpos : 0 < (needsAIOf rules ds).length :=
        List.length_pos.mpr (List.ne_nil_of_mem hmem)
      have hsmart : smartCategorize rules hasKey (fun n => .ok (aiCatS n)) d =
          categorizeByAI hasKey (.ok (aiCatS nd)) nd := by
        unfold smartCategorize
        rw [hp, hnd]
      have hpwmapS : ((needsAIOf rules ds).map fun it =>
          (it.index, mkBatchAiResult (some (aiCatS it.normalized)) it.normalized)).Pairwise
          fun a b => a.1 ≠ b.1 := by
        rw [List.pairwise_map]
        exact hndA
      have hpwmapF : ((needsAIOf rules ds).map fun it =>
          (it.index, fallbackResult it.normalized)).Pairwise fun a b => a.1 ≠ b.1 := by
        rw [List.pairwise_map]
        exact hndA
      cases hasKey with
      | true =>
        have hc : ((needsAIOf rules ds).length > 0 && true) = true := by simp [hpos]
        rw [hrhs, hsmart, batchCategorize_eq, if_pos hc, processBatches_stub, join_chunks20]
        have hv : getIdx (writeSlots ((needsAIOf rules ds).map fun it =>
            (it.index, mkBatchAiResult (some (aiCatS it.normalized)) it.normalized))
            (firstPass rules ds)) i =
            some (some (mkBatchAiResult (some (aiCatS nd)) nd)) :=
          writeSlots_map_value
            (fun it2 => mkBatchAiResult (some (aiCatS it2.normalized)) it2.normalized)
            (needsAIOf rules ds) (firstPass rules ds) ⟨i, d, nd⟩ hndA hmem
            (by rw [hlen0]; exact hi)
        rw [hv, mkBatchAiResult_eq_single _ _ (htrim nd)]
      | false =>
        have hc : ¬ ((needsAIOf rules ds).length > 0 && false) = true := by simp
        rw [hrhs, hsmart, batchCategorize_eq, if_neg hc, assignFallback_eq]
        have hv : getIdx (writeSlots ((needsAIOf rules ds).map fun it =>
            (it.index, fallbackResult it.normalized)) (firstPass rules ds)) i =
            some (some (fallbackResult nd)) :=
          writeSlots_map_value (fun it2 => fallbackResult it2.normalized)
            (needsAIOf rules ds) (firstPass rules ds) ⟨i, d, nd⟩ hndA hmem
            (by rw [hlen0]; exact hi)
        rw [hv]
        rfl
  · rw [getIdx_eq_none_of_le _ i (by rw [hlenB]; omega),
      getIdx_eq_none_of_le _ i (by rw [List.length_map]; omega)]

/-- Witness for C5: two unknown merchants, a stub that classifies both as
`Coffee`, batch output identical to the two single calls. -/
theorem C5_batch_single_equivalence_witness :
    batchCategorize [] true (fun ns => .parsed (ns.map fun _ => "Coffee"))
        [("ZZZZ".toList), ("QQQQ QQQQ".toList)] =
      [("ZZZZ".toList), ("QQQQ QQQQ".toList)].map fun d =>
        some (smartCategorize [] true (fun _ => .ok "Coffee") d) :=
  C5_batch_single_equivalence [] true (fun _ => "Coffee")
    [("ZZZZ".toList), ("QQQQ QQQQ".toList)] (by decide) (fun _ => rfl)

/-! ## Helper lemmas for the comparator sort -/

theorem mem_insertBy {α : Type} (keepFirst : α → α → Bool) (x a : α) :
    ∀ (l : List α), a ∈ insertBy keepFirst x l ↔ a = x ∨ a ∈ l := by
  intro l
  induction l with
  | nil => simp [insertBy]
  | cons y t ih =>
    by_cases hk : keepFirst y x = true
    · simp only [insertBy, hk, if_true, List.mem_cons, ih]
      tauto
    · rw [insertBy, if_neg hk]
      exact List.mem_cons

theorem mem_sortBy {α : Type} (keepFirst : α → α → Bool) (a : α) :
    ∀ (l : List α), a ∈ sortBy keepFirst l ↔ a ∈ l := by
  intro l
  induction l with
  | nil => simp [sortBy]
  | cons y t ih =>
    rw [sortBy, mem_insertBy, ih, List.mem_cons]

theorem pairwise_insertBy {α : Type} (keepFirst : α → α → Bool)
    (htot : ∀ a b, keepFirst a b = false → keepFirst b a = true)
    (htrans : ∀ a b c, keepFirst a b = true → keepFirst b c = true →
      keepFirst a c = true) (x : α) :
    ∀ (l : List α), l.Pairwise (fun a b => keepFirst a b = true) →
      (insertBy keepFirst x l).Pairwise fun a b => keepFirst a b = true := by
  intro l
  induction l with
  | nil => intro _; simp [insertBy]
  | cons y t ih =>
    intro h
    obtain ⟨hy, ht⟩ := List.pairwise_cons.mp h
    by_cases hk : keepFirst y x = true
    · rw [insertBy, if_pos hk]
      refine List.pairwise_cons.mpr ⟨?_, ih ht⟩
      intro z hz
      rcases (mem_insertBy keepFirst x z t).mp hz with hzx | hzt
      · rw [hzx]; exact hk
      · exact hy z hzt
    · rw [insertBy, if_neg hk]
      refine List.pairwise_cons.mpr ⟨?_, h⟩
      intro z hz
      rcases List.mem_cons.mp hz with hzy | hzt
      · rw [hzy]
        exact htot y x (Bool.eq_false_iff.mpr hk)
      · exact htrans x y z (htot y x (Bool.eq_false_iff.mpr hk)) (hy z hzt)

theorem pairwise_sortBy {α : Type} (keepFirst : α → α → Bool)
    (htot : ∀ a b, keepFirst a b = false → keepFirst b a = true)
    (htrans : ∀ a b c, keepFirst a b = true → keepFirst b c = true →
      keepFirst a c = true) :
    ∀ (l : List α), (sortBy keepFirst l).Pairwise fun a b => keepFirst a b = true := by
  intro l
  induction l with
  | nil => simp [sortBy]
  | cons y t ih => exact pairwise_insertBy keepFirst htot htrans y _ ih

/-- Every row surviving the scan filter belongs to the scope (and to the
requested document types when a non-empty filter is given). -/
theorem scanFilter_spec (table : List VectorDoc) (userId : String)
    (docTypes : Option (List String)) (d : VectorDoc)
    (hmem : d ∈ scanFilter table userId docTypes) :
    d.userId = userId ∧ ∀ ts, docTypes = some ts → ts ≠ [] → d.docType ∈ ts := by
  obtain ⟨_, hp⟩ := List.mem_filter.mp hmem
  simp only [Bool.and_eq_true, beq_iff_eq] at hp
  refine ⟨hp.1, ?_⟩
  intro ts hts hne
  have h2 : docTypeOk (some ts) d.docType = true := hts ▸ hp.2
  simp only [docTypeOk] at h2
  rw [if_pos (List.length_pos.mpr hne)] at h2
  simpa using h2

/-! ## Claim theorems: Retrieval layer -/

/-- C9.  In both backing implementations — the application-side cosine scan
and the pgvector-native search — `searchSimilar` returns only documents of
the given user scope (matching the docTypes filter when a non-empty one is
given), never returns a score below `minScore`, is sorted descending by
score, and has at most `topK` elements.  The numeric similarity/distance
is abstracted as an oracle since the orderings and filters are independent
of its values. -/
theorem C9_search_scoped_ranked :
    (∀ (sim : List ℚ → List ℚ → ℚ) (table : List VectorDoc) (userId : String)
      (queryEmbedding : List ℚ) (topK : Nat) (docTypes : Option (List String))
      (minScore : ℚ),
      (∀ p ∈ searchSimilarApp sim table userId queryEmbedding topK docTypes minScore,
        p.1.userId = userId ∧ minScore ≤ p.2 ∧
        ∀ ts, docTypes = some ts → ts ≠ [] → p.1.docType ∈ ts) ∧
      (searchSimilarApp sim table userId queryEmbedding topK docTypes minScore).Pairwise
        (fun a b => b.2 ≤ a.2) ∧
      (searchSimilarApp sim table userId queryEmbedding topK docTypes minScore).length
        ≤ topK) ∧
    (∀ (dist : List ℚ → List ℚ → ℚ) (table : List VectorDoc) (userId : String)
      (queryEmbedding : List ℚ) (topK : Nat) (docTypes : Option (List String))
      (minScore : ℚ),
      (∀ p ∈ searchSimilarPg dist table userId queryEmbedding topK docTypes minScore,
        p.1.userId = userId ∧ minScore ≤ p.2 ∧
        ∀ ts, docTypes = some ts → ts ≠ [] → p.1.docType ∈ ts) ∧
      (searchSimilarPg dist table userId queryEmbedding topK docTypes minScore).Pairwise
        (fun a b => b.2 ≤ a.2) ∧
      (searchSimilarPg dist table userId queryEmbedding topK docTypes minScore).length
        ≤ topK) := by
  constructor
  · intro sim table userId queryEmbedding topK docTypes minScore
    refine ⟨?_, ?_, ?_⟩
    · intro p hp
      unfold searchSimilarApp at hp
      have hsorted := List.take_subset topK _ hp
      rw [mem_sortBy] at hsorted
      obtain ⟨hmap, hmin⟩ := List.mem_filter.mp hsorted
      obtain ⟨d, hd, he⟩ := List.mem_map.mp hmap
      obtain ⟨h1, h3⟩ := scanFilter_spec table userId docTypes d hd
      rw [← he] at hmin ⊢
      exact ⟨h1, by simpa using hmin, h3⟩
    · unfold searchSimilarApp
      have hs := pairwise_sortBy (fun y x => decide (x.2 ≤ y.2))
        (fun a b h => decide_eq_true (le_of_not_le (of_decide_eq_false h)))
        (fun a b c h1 h2 =>
          decide_eq_true (le_trans (of_decide_eq_true h2) (of_decide_eq_true h1)))
        ((scanFilter table userId docTypes).map
          (fun d => (d, sim queryEmbedding d.embedding)) |>.filter
          fun r => decide (minScore ≤ r.2))
      exact ((hs.imp fun h => of_decide_eq_true h).sublist (List.take_sublist _ _))
    · unfold searchSimilarApp
      exact List.length_take_le _ _
  · intro dist table userId queryEmbedding topK docTypes minScore
    refine ⟨?_, ?_, ?_⟩
    · intro p hp
      unfold searchSimilarPg at hp
      obtain ⟨q, hq, he⟩ := List.mem_map.mp hp
      obtain ⟨hq1, hq2⟩ := List.mem_filter.mp hq
      have hrows := List.take_subset topK _ hq1
      rw [mem_sortBy] at hrows
      obtain ⟨d, hd, heq⟩ := List.mem_map.mp hrows
      obtain ⟨h1, h3⟩ := scanFilter_spec table userId docTypes d hd
      subst he
      subst heq
      exact ⟨h1, of_decide_eq_true hq2, h3⟩
    · unfold searchSimilarPg
      have hs := pairwise_sortBy (fun y x => decide (y.2 ≤ x.2))
        (fun a b h => decide_eq_true (le_of_not_le (of_decide_eq_false h)))
        (fun a b c h1 h2 =>
          decide_eq_true (le_trans (of_decide_eq_true h1) (of_decide_eq_true h2)))
        ((scanFilter table userId docTypes).map
          fun d => (d, dist queryEmbedding d.embedding))
      have hordered := (hs.imp fun h => of_decide_eq_true h).sublist
        (List.take_sublist topK _)
      have hfiltered := hordered.sublist
        (@List.filter_sublist _ (fun p => decide (minScore ≤ 1 - p.2)) _)
      rw [List.pairwise_map]
      exact hfiltered.imp fun h => sub_le_sub_left h 1
    · unfold searchSimilarPg
      rw [List.length_map]
      exact le_trans (List.length_filter_le _ _) (List.length_take_le _ _)

/-- Witness for C9 on a three-document store with two scopes: the scope-,
score- and size-properties hold at the concrete result entry scoring 9, in
both implementations. -/
theorem C9_search_scoped_ranked_witness :
    (((⟨1, "u1", "transaction", "s1", "t1", [(9:ℚ)]⟩ : VectorDoc), (9:ℚ)).1.userId
        = "u1" ∧
      (5:ℚ) ≤ ((⟨1, "u1", "transaction", "s1", "t1", [(9:ℚ)]⟩ : VectorDoc), (9:ℚ)).2 ∧
      ∀ ts, (none : Option (List String)) = some ts → ts ≠ [] →
        ((⟨1, "u1", "transaction", "s1", "t1", [(9:ℚ)]⟩ : VectorDoc),
          (9:ℚ)).1.docType ∈ ts) ∧
    (searchSimilarApp (fun _ e => e.headD 0)
      [⟨1, "u1", "transaction", "s1", "t1", [(9:ℚ)]⟩,
       ⟨2, "u2", "transaction", "s2", "t2", [10]⟩,
       ⟨3, "u1", "transaction", "s3", "t3", [(3:ℚ)]⟩] "u1" [] 5 none (5:ℚ)).length
      ≤ 5 ∧
    (searchSimilarPg (fun _ e => 1 - e.headD 0)
      [⟨1, "u1", "transaction", "s1", "t1", [(9:ℚ)]⟩,
       ⟨2, "u2", "transaction", "s2", "t2", [10]⟩,
       ⟨3, "u1", "transaction", "s3", "t3", [(3:ℚ)]⟩] "u1" [] 5 none (5:ℚ)).length
      ≤ 5 :=
  ⟨(C9_search_scoped_ranked.1 (fun _ e => e.headD 0)
      [⟨1, "u1", "transaction", "s1", "t1", [(9:ℚ)]⟩,
       ⟨2, "u2", "transaction", "s2", "t2", [10]⟩,
       ⟨3, "u1", "transaction", "s3", "t3", [(3:ℚ)]⟩] "u1" [] 5 none (5:ℚ)).1
      ((⟨1, "u1", "transaction", "s1", "t1", [(9:ℚ)]⟩ : VectorDoc), (9:ℚ))
      (by decide),
   (C9_search_scoped_ranked.1 (fun _ e => e.headD 0)
      [⟨1, "u1", "transaction", "s1", "t1", [(9:ℚ)]⟩,
       ⟨2, "u2", "transaction", "s2", "t2", [10]⟩,
       ⟨3, "u1", "transaction", "s3", "t3", [(3:ℚ)]⟩] "u1" [] 5 none (5:ℚ)).2.2,
   (C9_search_scoped_ranked.2 (fun _ e => 1 - e.headD 0)
      [⟨1, "u1", "transaction", "s1", "t1", [(9:ℚ)]⟩,
       ⟨2, "u2", "transaction", "s2", "t2", [10]⟩,
       ⟨3, "u1", "transaction", "s3", "t3", [(3:ℚ)]⟩] "u1" [] 5 none (5:ℚ)).2.2⟩

end FinancePilot
